import Mathlib

/-!
Verification of the frame/label decoding and streaming worker
(src/app/packages/looker/src/worker.ts) against its natural-language
specification.  The worker normalizes label records (identifier rewrite and
mask decoding), maintains a pull-based chunked frame source, and routes
host messages.  The definitions below are a shallow embedding of that
file: JSON-shaped values become an inductive type, in-place mutation
becomes pure update of association lists, thrown exceptions become Except,
and the asynchronous stream/session behaviour becomes an explicit
transition system.
-/

namespace Worker

/-- JavaScript values as they occur in label records: the worker receives
JSON-parsed data (tree shaped, no aliasing), plus the decoded binary
buffers produced by the codec.  A decoded buffer is represented by the text
it was decoded from; the codec internals are outside these claims. -/
inductive JVal where
  | undef : JVal
  | jnull : JVal
  | bool (b : Bool) : JVal
  | num (n : Int) : JVal
  | str (s : String) : JVal
  | buf (src : String) : JVal
  | arr (elems : List JVal) : JVal
  | obj (fields : List (String × JVal)) : JVal

/-- A JavaScript object: an association list of fields in insertion order
with unique keys, as produced by JSON parsing. -/
abbrev JObj := List (String × JVal)

/-- Property read: a missing key reads as undefined. -/
def getKey : JObj → String → JVal
  | [], _ => .undef
  | (k, v) :: rest, key => if k = key then v else getKey rest key

/-- Property write: overwrite the key in place, or append a new key at the
end (JavaScript insertion order). -/
def setKey : JObj → String → JVal → JObj
  | [], key, v => [(key, v)]
  | (k, w) :: rest, key, v =>
    if k = key then (key, v) :: rest else (k, w) :: setKey rest key v

/-- Property delete. -/
def delKey (o : JObj) (key : String) : JObj := o.filter (fun p => p.1 != key)

/-- Key membership test. -/
def hasKey (o : JObj) (key : String) : Bool := o.any (fun p => p.1 == key)

/-- JavaScript truthiness of a value. -/
def truthy : JVal → Bool
  | .undef => false
  | .jnull => false
  | .bool b => b
  | .num n => n != 0
  | .str s => s != ""
  | .buf _ => true
  | .arr _ => true
  | .obj _ => true

/-- Embedding of mapId from worker.ts: obj.id = obj._id, then delete
obj._id (reading a missing _id yields undefined, which is then assigned). -/
def mapId (o : JObj) : JObj := delKey (setKey o "id" (getKey o "_id")) "_id"

/-- Embedding of mapId as applied to an arbitrary list element by
list.map(mapId): property assignment on a primitive throws in strict mode,
and reading ._id of null or undefined always throws. -/
def mapIdVal : JVal → Except Unit JVal
  | .obj o => .ok (.obj (mapId o))
  | _ => .error ()

/-- Modelled from the spec: the set of recognized label kinds, i.e. the
LABELS table imported from ./constants, a module that is not among the
provided sources.  The spec recognizes a single detection, a list-valued
detections container, and a dense segmentation mask. -/
def LABELS : List String := ["Detection", "Detections", "Segmentation"]

/-- Modelled from the spec: the list-valued label kinds together with the
field holding their nested list, i.e. the LABEL_LISTS table from
./constants, not among the provided sources. -/
def LABEL_LISTS : List (String × String) := [("Detections", "detections")]

/-- Lookup in the LABEL_LISTS table. -/
def labelListField (cls : String) : Option String :=
  (LABEL_LISTS.find? (fun p => p.1 == cls)).map (·.2)

/-- The codec call deserialize(mask): produces a native binary buffer,
modelled as an opaque value keeping the encoded text. -/
def deserialize (s : String) : JVal := .buf s

/-- Body shared by the DESERIALIZE handlers of worker.ts: if label.mask is
a string, replace it with the decoded buffer and record the new buffer. -/
def maskStep (o : JObj) : JObj × List String :=
  match getKey o "mask" with
  | .str s => (setKey o "mask" (deserialize s), [s])
  | _ => (o, [])

/-- Mask decoding of one element of a detections list: reading .mask of
null or undefined throws, a primitive has no string mask and is skipped. -/
def maskStepVal : JVal → Except Unit (JVal × List String)
  | .obj o => .ok ((maskStep o).1 |> JVal.obj, (maskStep o).2)
  | .undef => .error ()
  | .jnull => .error ()
  | v => .ok (v, [])

/-- Effectful map over a list, stopping at the first thrown exception;
models forEach and map with bodies that can throw. -/
def exMapM (f : α → Except Unit β) : List α → Except Unit (List β)
  | [] => .ok []
  | x :: xs => do
    let y ← f x
    let ys ← exMapM f xs
    .ok (y :: ys)

/-- Embedding of the DESERIALIZE dispatch of worker.ts: Detection and
Segmentation decode their own mask field; Detections decodes the mask of
every element of its detections list, and labels.detections.forEach throws
when detections is not an array. -/
def deserializeStep (cls : String) (o : JObj) : Except Unit (JObj × List String) :=
  if cls = "Detection" ∨ cls = "Segmentation" then
    .ok (maskStep o)
  else if cls = "Detections" then
    match getKey o "detections" with
    | .arr xs => do
      let pairs ← exMapM maskStepVal xs
      .ok (setKey o "detections" (.arr (pairs.map (·.1))), (pairs.map (·.2)).flatten)
    | _ => .error ()
  else
    .ok (o, [])

/-- Embedding of the identifier-rewrite half of the handleLabels loop: for
recognized list kinds apply mapId to every element of the nested list when
that list is an array, for other recognized kinds apply mapId to the label
itself, otherwise leave the value alone. -/
def labelsStep (cls : String) (o : JObj) : Except Unit JObj :=
  if LABELS.contains cls then
    match labelListField cls with
    | some listField =>
      match getKey o listField with
      | .arr xs => do
        let xs2 ← exMapM mapIdVal xs
        .ok (setKey o listField (.arr xs2))
      | _ => .ok o
    | none => .ok (mapId o)
  else
    .ok o

/-- One iteration of the handleLabels field loop on a field value: falsy
values are skipped, then the DESERIALIZE and LABELS dispatches run on a
label carrying a string _cls tag (any other _cls matches no table key). -/
def handleField (v : JVal) : Except Unit (JVal × List String) :=
  if truthy v = false then .ok (v, [])
  else
    match v with
    | .obj o =>
      match getKey o "_cls" with
      | .str cls => do
        let p ← deserializeStep cls o
        let o2 ← labelsStep cls p.1
        .ok (.obj o2, p.2)
      | _ => .ok (v, [])
    | _ => .ok (v, [])

/-- Embedding of handleLabels from worker.ts: walk the fields of the record
in order, decode masks and rewrite identifiers in place, and collect every
newly created buffer. -/
def handleLabels : JObj → Except Unit (JObj × List String)
  | [] => .ok ([], [])
  | (k, v) :: rest => do
    let p ← handleField v
    let q ← handleLabels rest
    .ok ((k, p.1) :: q.1, p.2 ++ q.2)

/-- handleLabels applied to one element of sample.frames: a for..in loop
over a primitive or null body performs no iteration. -/
def handleFrame : JVal → Except Unit (JVal × List String)
  | .obj f => do
    let p ← handleLabels f
    .ok (JVal.obj p.1, p.2)
  | v => .ok (v, [])

/-- Embedding of handleSample from worker.ts: handleLabels on the sample,
then handleLabels on every per-frame record when sample.frames is a
non-empty array, then mapId on the sample itself; buffers concatenate in
that order.  A truthy frames value with a truthy length that is not an
array would make frames.map throw. -/
def handleSample (o : JObj) : Except Unit (JObj × List String) := do
  let p ← handleLabels o
  let q ←
    match getKey p.1 "frames" with
    | .arr xs =>
      if xs.length = 0 then .ok (p.1, ([] : List String))
      else do
        let pairs ← exMapM handleFrame xs
        .ok (setKey p.1 "frames" (.arr (pairs.map (·.1))), (pairs.map (·.2)).flatten)
    | .str s => if s = "" then .ok (p.1, ([] : List String)) else .error ()
    | .obj f => if truthy (getKey f "length") then .error () else .ok (p.1, ([] : List String))
    | .buf _ => .error ()
    | _ => .ok (p.1, ([] : List String))
  .ok (mapId q.1, p.2 ++ q.2)

/-! Association-list lemmas about property access, update and delete. -/

theorem getKey_setKey_self (o : JObj) (k : String) (v : JVal) :
    getKey (setKey o k v) k = v := by
  induction o with
  | nil => simp [setKey, getKey]
  | cons p rest ih =>
    obtain ⟨k0, v0⟩ := p
    by_cases h : k0 = k
    · simp [setKey, h, getKey]
    · simp [setKey, h, getKey, ih]

theorem ebind_ok (a : α) (f : α → Except ε β) :
    (do let x ← Except.ok a; f x) = f a := rfl

theorem ebind_error (e : ε) (f : α → Except ε β) :
    (do let x ← (Except.error e : Except ε α); f x) = Except.error e := rfl

theorem getKey_setKey_ne (o : JObj) (k key : String) (v : JVal) (h : k ≠ key) :
    getKey (setKey o key v) k = getKey o k := by
  induction o with
  | nil => simp [setKey, getKey, Ne.symm h]
  | cons p rest ih =>
    obtain ⟨k0, v0⟩ := p
    by_cases h0 : k0 = key
    · subst h0
      simp [setKey, getKey, Ne.symm h]
    · by_cases hk : k0 = k
      · simp [setKey, h0, getKey, hk, h]
      · simp [setKey, h0, getKey, hk, ih, h]

theorem getKey_delKey_ne (o : JObj) (k key : String) (h : k ≠ key) :
    getKey (delKey o key) k = getKey o k := by
  induction o with
  | nil => rfl
  | cons p rest ih =>
    obtain ⟨k0, v0⟩ := p
    simp only [delKey, List.filter_cons] at ih ⊢
    by_cases h0 : k0 = key
    · subst h0
      simp [getKey, Ne.symm h, ih]
    · by_cases hk : k0 = k
      · subst hk
        simp [getKey, bne_iff_ne, h0]
      · simp [getKey, bne_iff_ne, h0, hk, ih]

theorem hasKey_delKey_self (o : JObj) (key : String) :
    hasKey (delKey o key) key = false := by
  induction o with
  | nil => rfl
  | cons p rest ih =>
    obtain ⟨k0, v0⟩ := p
    simp only [delKey, List.filter_cons] at ih ⊢
    by_cases h0 : k0 = key
    · simp [h0, ih]
    · simp [bne_iff_ne, h0, hasKey, ih]

theorem getKey_of_hasKey_false (o : JObj) (k : String) (h : hasKey o k = false) :
    getKey o k = .undef := by
  induction o with
  | nil => rfl
  | cons p rest ih =>
    obtain ⟨k0, v0⟩ := p
    simp only [hasKey, List.any_cons, Bool.or_eq_false_iff, beq_eq_false_iff_ne, ne_eq] at h
    simp [getKey, h.1, ih (by simpa [hasKey] using h.2)]

theorem delKey_of_hasKey_false (o : JObj) (k : String) (h : hasKey o k = false) :
    delKey o k = o := by
  induction o with
  | nil => rfl
  | cons p rest ih =>
    obtain ⟨k0, v0⟩ := p
    simp only [hasKey, List.any_cons, Bool.or_eq_false_iff, beq_eq_false_iff_ne, ne_eq] at h
    simp only [delKey, List.filter_cons, bne_iff_ne, ne_eq, h.1, not_false_eq_true, if_pos]
    simpa [delKey] using ih (by simpa [hasKey] using h.2)

theorem setKey_getKey_self (o : JObj) (k : String) (v : JVal)
    (hget : getKey o k = v) (hne : v ≠ .undef) : setKey o k v = o := by
  induction o with
  | nil =>
    simp only [getKey] at hget
    exact absurd hget.symm hne
  | cons p rest ih =>
    obtain ⟨k0, v0⟩ := p
    by_cases h0 : k0 = k
    · subst h0
      have hv : v0 = v := by simpa [getKey] using hget
      simp [setKey, hv]
    · simp only [getKey, h0, if_neg h0] at hget
      simp [setKey, h0, ih hget]

theorem delKey_setKey_self (o : JObj) (k : String) (v : JVal) :
    delKey (setKey o k v) k = delKey o k := by
  induction o with
  | nil => simp [setKey, delKey, List.filter_cons]
  | cons p rest ih =>
    obtain ⟨k0, v0⟩ := p
    by_cases h0 : k0 = k
    · subst h0
      simp [setKey, delKey, List.filter_cons]
    · simp only [setKey, if_neg h0]
      simp only [delKey, List.filter_cons, bne_iff_ne, ne_eq, h0, not_false_eq_true, if_pos,
        List.cons.injEq, true_and]
      simpa [delKey] using ih

theorem delKey_setKey_ne (o : JObj) (k key : String) (v : JVal) (h : key ≠ k) :
    delKey (setKey o key v) k = setKey (delKey o k) key v := by
  induction o with
  | nil => simp [setKey, delKey, List.filter_cons, bne_iff_ne, h]
  | cons p rest ih =>
    obtain ⟨k0, v0⟩ := p
    by_cases h0 : k0 = key
    · subst h0
      simp [setKey, delKey, List.filter_cons, bne_iff_ne, h]
    · by_cases hk : k0 = k
      · subst hk
        simp only [setKey, if_neg h0]
        simpa [delKey, List.filter_cons] using ih
      · simp only [setKey, if_neg h0]
        simp only [delKey, List.filter_cons, bne_iff_ne, ne_eq, hk, not_false_eq_true, if_pos]
        have hih := ih
        simp only [delKey] at hih
        simp [hih, setKey, if_neg h0]

/-! Lemmas about the identifier rewrite mapId. -/

theorem getKey_mapId_id (o : JObj) : getKey (mapId o) "id" = getKey o "_id" := by
  unfold mapId
  rw [getKey_delKey_ne _ _ _ (by decide), getKey_setKey_self]

theorem hasKey_mapId_uid (o : JObj) : hasKey (mapId o) "_id" = false := by
  unfold mapId
  exact hasKey_delKey_self _ _

theorem getKey_mapId_ne (o : JObj) (k : String) (h1 : k ≠ "id") (h2 : k ≠ "_id") :
    getKey (mapId o) k = getKey o k := by
  unfold mapId
  rw [getKey_delKey_ne _ _ _ h2, getKey_setKey_ne _ _ _ _ h1]

theorem mapId_of_no_uid (o : JObj) (h : hasKey o "_id" = false) :
    mapId o = setKey o "id" .undef := by
  unfold mapId
  rw [getKey_of_hasKey_false _ _ h]
  have hset : hasKey (setKey o "id" JVal.undef) "_id" = false := by
    induction o with
    | nil => simp [setKey, hasKey]
    | cons p rest ih =>
      obtain ⟨k0, v0⟩ := p
      simp [hasKey] at h
      by_cases h0 : k0 = "id"
      · simp [setKey, h0, hasKey]
        simpa [hasKey] using h.2
      · simp [setKey, h0, hasKey, h.1]
        simpa [hasKey] using ih (by simpa [hasKey] using h.2)
  exact delKey_of_hasKey_false _ _ hset

/-! Lemmas about the effectful list map. -/

theorem exMapM_ok_length {f : α → Except Unit β} {xs : List α} {ys : List β}
    (h : exMapM f xs = .ok ys) : ys.length = xs.length := by
  induction xs generalizing ys with
  | nil =>
    simp only [exMapM, Except.ok.injEq] at h
    simp [← h]
  | cons x rest ih =>
    simp only [exMapM] at h
    cases hx : f x with
    | error e => rw [hx, ebind_error] at h; simp at h
    | ok y =>
      rw [hx, ebind_ok] at h
      cases hr : exMapM f rest with
      | error e => rw [hr, ebind_error] at h; simp at h
      | ok ys0 =>
        rw [hr, ebind_ok] at h
        simp only [Except.ok.injEq] at h
        simp [← h, ih hr]

theorem exMapM_ok_get {f : α → Except Unit β} {xs : List α} {ys : List β}
    (h : exMapM f xs = .ok ys) (i : Nat) (a : α) (ha : xs[i]? = some a) :
    ∃ b, ys[i]? = some b ∧ f a = .ok b := by
  induction xs generalizing ys i with
  | nil => simp at ha
  | cons x rest ih =>
    simp only [exMapM] at h
    cases hx : f x with
    | error e => rw [hx, ebind_error] at h; simp at h
    | ok y =>
      rw [hx, ebind_ok] at h
      cases hr : exMapM f rest with
      | error e => rw [hr, ebind_error] at h; simp at h
      | ok ys0 =>
        rw [hr, ebind_ok] at h
        simp only [Except.ok.injEq] at h
        cases i with
        | zero =>
          simp only [List.getElem?_cons_zero, Option.some.injEq] at ha
          subst ha
          exact ⟨y, by simp [← h], hx⟩
        | succ j =>
          simp only [List.getElem?_cons_succ] at ha
          obtain ⟨b, hb1, hb2⟩ := ih hr j ha
          exact ⟨b, by simp [← h, hb1], hb2⟩

theorem setKey_setKey (o : JObj) (k : String) (v w : JVal) :
    setKey (setKey o k v) k w = setKey o k w := by
  induction o with
  | nil => simp [setKey]
  | cons p rest ih =>
    obtain ⟨k0, v0⟩ := p
    by_cases h0 : k0 = k
    · simp [setKey, h0]
    · simp [setKey, h0, ih]

theorem maskStep_getKey_ne (o : JObj) (k : String) (h : k ≠ "mask") :
    getKey (maskStep o).1 k = getKey o k := by
  unfold maskStep
  cases hm : getKey o "mask" with
  | str s => simp [getKey_setKey_ne _ _ _ _ h]
  | undef => rfl
  | jnull => rfl
  | bool b => rfl
  | num n => rfl
  | buf s => rfl
  | arr xs => rfl
  | obj f => rfl

/-! Inversion lemmas for handleLabels and handleSample. -/

theorem handleLabels_getKey {o o2 : JObj} {bs : List String}
    (h : handleLabels o = .ok (o2, bs)) (k : String) :
    ∃ bv, handleField (getKey o k) = .ok (getKey o2 k, bv) := by
  induction o generalizing o2 bs with
  | nil =>
    simp only [handleLabels, Except.ok.injEq, Prod.mk.injEq] at h
    rw [← h.1]
    exact ⟨[], rfl⟩
  | cons p rest ih =>
    obtain ⟨k0, v0⟩ := p
    simp only [handleLabels] at h
    cases hp : handleField v0 with
    | error e => rw [hp, ebind_error] at h; simp at h
    | ok pr =>
      rw [hp, ebind_ok] at h
      cases hq : handleLabels rest with
      | error e => rw [hq, ebind_error] at h; simp at h
      | ok qr =>
        rw [hq, ebind_ok] at h
        simp only [Except.ok.injEq, Prod.mk.injEq] at h
        rw [← h.1]
        by_cases hk : k0 = k
        · subst hk
          refine ⟨pr.2, ?_⟩
          have h1 : getKey ((k0, v0) :: rest) k0 = v0 := by simp [getKey]
          have h2 : getKey ((k0, pr.1) :: qr.1) k0 = pr.1 := by simp [getKey]
          rw [h1, h2, hp]
        · simp only [getKey, if_neg hk]
          exact ih hq

theorem handleLabels_hasKey {o o2 : JObj} {bs : List String}
    (h : handleLabels o = .ok (o2, bs)) (k : String) :
    hasKey o2 k = hasKey o k := by
  induction o generalizing o2 bs with
  | nil =>
    simp only [handleLabels, Except.ok.injEq, Prod.mk.injEq] at h
    rw [← h.1]
  | cons p rest ih =>
    obtain ⟨k0, v0⟩ := p
    simp only [handleLabels] at h
    cases hp : handleField v0 with
    | error e => rw [hp, ebind_error] at h; simp at h
    | ok pr =>
      rw [hp, ebind_ok] at h
      cases hq : handleLabels rest with
      | error e => rw [hq, ebind_error] at h; simp at h
      | ok qr =>
        rw [hq, ebind_ok] at h
        simp only [Except.ok.injEq, Prod.mk.injEq] at h
        rw [← h.1]
        have hrest : hasKey qr.1 k = hasKey rest k := ih (by rw [hq])
        simp only [hasKey, List.any_cons] at hrest ⊢
        rw [hrest]

theorem handleSample_decomp {o o3 : JObj} {bufs : List String}
    (h : handleSample o = .ok (o3, bufs)) :
    ∃ o1 bs1 o2 bs2, handleLabels o = .ok (o1, bs1) ∧ o3 = mapId o2 ∧
      bufs = bs1 ++ bs2 ∧
      (∀ k, k ≠ "frames" → getKey o2 k = getKey o1 k) ∧
      (∀ k l, getKey o1 k = .obj l → getKey o2 k = .obj l) := by
  simp only [handleSample] at h
  cases hp : handleLabels o with
  | error e => rw [hp, ebind_error] at h; simp at h
  | ok pr =>
    rw [hp, ebind_ok] at h
    obtain ⟨o1, bs1⟩ := pr
    dsimp only at h
    split at h
    case h_1 xs heq =>
      split at h
      case isTrue hlen =>
        rw [ebind_ok] at h
        simp only [Except.ok.injEq, Prod.mk.injEq] at h
        exact ⟨o1, bs1, o1, [], rfl, h.1.symm, by simp [← h.2], fun k _ => rfl, fun k l hl => hl⟩
      case isFalse hlen =>
        cases hpairs : exMapM handleFrame xs with
        | error e =>
          rw [hpairs] at h
          exact Except.noConfusion h
        | ok pairs =>
          rw [hpairs] at h
          injection h with h
          injection h with ha hb
          refine ⟨o1, bs1, setKey o1 "frames" (.arr (pairs.map (·.1))),
            (pairs.map (·.2)).flatten, rfl, ha.symm, hb.symm,
            fun k hk => getKey_setKey_ne _ _ _ _ hk, fun k l hl => ?_⟩
          by_cases hk : k = "frames"
          · rw [hk, heq] at hl
            cases hl
          · rw [getKey_setKey_ne _ _ _ _ hk]
            exact hl
    case h_2 s heq =>
      split at h
      case isTrue hs =>
        rw [ebind_ok] at h
        simp only [Except.ok.injEq, Prod.mk.injEq] at h
        exact ⟨o1, bs1, o1, [], rfl, h.1.symm, by simp [← h.2], fun k _ => rfl, fun k l hl => hl⟩
      case isFalse hs =>
        rw [ebind_error] at h
        simp at h
    case h_3 f heq =>
      split at h
      case isTrue ht =>
        rw [ebind_error] at h
        simp at h
      case isFalse ht =>
        rw [ebind_ok] at h
        simp only [Except.ok.injEq, Prod.mk.injEq] at h
        exact ⟨o1, bs1, o1, [], rfl, h.1.symm, by simp [← h.2], fun k _ => rfl, fun k l hl => hl⟩
    case h_4 s heq =>
      rw [ebind_error] at h
      simp at h
    case h_5 v heq hne =>
      rw [ebind_ok] at h
      simp only [Except.ok.injEq, Prod.mk.injEq] at h
      exact ⟨o1, bs1, o1, [], rfl, h.1.symm, by simp [← h.2], fun k _ => rfl, fun k l hl => hl⟩

theorem handleField_non_obj (v : JVal) (h : ∀ l, v ≠ .obj l) :
    handleField v = .ok (v, []) := by
  cases v with
  | obj l => exact absurd rfl (h l)
  | str s =>
    by_cases hs : s = "" <;> simp [handleField, truthy, hs]
  | num n =>
    by_cases hn : n = 0 <;> simp [handleField, truthy, hn]
  | bool b => cases b <;> simp [handleField, truthy]
  | undef => rfl
  | jnull => rfl
  | buf s => simp [handleField, truthy]
  | arr xs => simp [handleField, truthy]

theorem handleField_detections {l : JObj} {res : JVal × List String} {xs : List JVal}
    (hcls : getKey l "_cls" = .str "Detections")
    (hdet : getKey l "detections" = .arr xs)
    (h : handleField (.obj l) = .ok res) :
    ∃ pairs xs2, exMapM maskStepVal xs = .ok pairs ∧
      exMapM mapIdVal (pairs.map (·.1)) = .ok xs2 ∧
      res = (.obj (setKey l "detections" (.arr xs2)), (pairs.map (·.2)).flatten) := by
  have h1 : handleField (.obj l) = (deserializeStep "Detections" l >>= fun p =>
      labelsStep "Detections" p.1 >>= fun o2 => Except.ok (.obj o2, p.2)) := by
    simp [handleField, truthy, hcls]
  rw [h1] at h
  have h2 : deserializeStep "Detections" l = (exMapM maskStepVal xs >>= fun pairs =>
      Except.ok (setKey l "detections" (.arr (pairs.map (·.1))), (pairs.map (·.2)).flatten)) := by
    simp [deserializeStep, hdet]
  rw [h2] at h
  cases hpairs : exMapM maskStepVal xs with
  | error e =>
    rw [hpairs] at h
    exact Except.noConfusion h
  | ok pairs =>
    rw [hpairs] at h
    rw [ebind_ok] at h
    rw [ebind_ok] at h
    have h3 : labelsStep "Detections" (setKey l "detections" (.arr (pairs.map (·.1)))) =
        (exMapM mapIdVal (pairs.map (·.1)) >>= fun xs2 =>
          Except.ok (setKey l "detections" (.arr xs2))) := by
      have hcont : LABELS.contains "Detections" = true := rfl
      have hfield : labelListField "Detections" = some "detections" := rfl
      simp [labelsStep, hcont, hfield, getKey_setKey_self, setKey_setKey]
      intro hmem
      exact absurd (by decide) hmem
    rw [h3] at h
    cases hxs2 : exMapM mapIdVal (pairs.map (·.1)) with
    | error e =>
      rw [hxs2] at h
      exact Except.noConfusion h
    | ok xs2 =>
      rw [hxs2] at h
      rw [ebind_ok] at h
      rw [ebind_ok] at h
      injection h with h
      exact ⟨pairs, xs2, rfl, hxs2, h.symm⟩

theorem handleField_single {l : JObj} {res : JVal × List String} {cls : String}
    (hcls : getKey l "_cls" = .str cls)
    (hone : cls = "Detection" ∨ cls = "Segmentation")
    (h : handleField (.obj l) = .ok res) :
    res = (.obj (mapId (maskStep l).1), (maskStep l).2) := by
  have h1 : handleField (.obj l) = (deserializeStep cls l >>= fun p =>
      labelsStep cls p.1 >>= fun o2 => Except.ok (.obj o2, p.2)) := by
    simp [handleField, truthy, hcls]
  have h2 : deserializeStep cls l = .ok (maskStep l) := by
    rcases hone with hc | hc <;> subst hc <;> simp [deserializeStep]
  have h3 : labelsStep cls (maskStep l).1 = .ok (mapId (maskStep l).1) := by
    rcases hone with hc | hc <;> subst hc <;> rfl
  rw [h1, h2] at h
  rw [ebind_ok] at h
  rw [h3] at h
  rw [ebind_ok] at h
  injection h with h
  exact h.symm

theorem detections_elementwise {xs : List JVal} {pairs : List (JVal × List String)}
    {xs2 : List JVal}
    (hpairs : exMapM maskStepVal xs = .ok pairs)
    (hxs2 : exMapM mapIdVal (pairs.map (·.1)) = .ok xs2) :
    xs2.length = xs.length ∧
    ∀ (i : Nat) (f : JObj), xs[i]? = some (.obj f) →
      ∃ (f2 : JObj), xs2[i]? = some (.obj f2) ∧
        getKey f2 "id" = getKey f "_id" ∧ hasKey f2 "_id" = false := by
  constructor
  · rw [exMapM_ok_length hxs2, List.length_map, exMapM_ok_length hpairs]
  · intro i f hxf
    obtain ⟨b, hbi, hbv⟩ := exMapM_ok_get hpairs i _ hxf
    have hbval : b = (.obj (maskStep f).1, (maskStep f).2) := by
      simp only [maskStepVal, Except.ok.injEq] at hbv
      exact hbv.symm
    have hmapi : (pairs.map (·.1))[i]? = some (.obj (maskStep f).1) := by
      rw [List.getElem?_map, hbi, hbval]
      rfl
    obtain ⟨c, hci, hcv⟩ := exMapM_ok_get hxs2 i _ hmapi
    have hcval : c = .obj (mapId (maskStep f).1) := by
      simp only [mapIdVal, Except.ok.injEq] at hcv
      exact hcv.symm
    refine ⟨mapId (maskStep f).1, by rw [hci, hcval], ?_, hasKey_mapId_uid _⟩
    rw [getKey_mapId_id, maskStep_getKey_ne _ _ (by decide)]

/-- Claim C2: for every label record with a top-level internal identifier
field holding a string, handleSample yields a record whose public id equals
that string with the internal field removed, and every element of the
nested list of a recognized list-valued label (Detections) undergoes the
same rewrite. -/
theorem c2_identifier_rewrite {o o3 : JObj} {bufs : List String} {x : String}
    (hok : handleSample o = .ok (o3, bufs))
    (hid : getKey o "_id" = .str x) :
    (getKey o3 "id" = .str x ∧ hasKey o3 "_id" = false) ∧
    (∀ (k : String) (l : JObj) (xs : List JVal), k ≠ "id" → getKey o k = .obj l →
      getKey l "_cls" = .str "Detections" → getKey l "detections" = .arr xs →
      ∃ (l2 : JObj) (xs2 : List JVal), getKey o3 k = .obj l2 ∧
        getKey l2 "detections" = .arr xs2 ∧
        xs2.length = xs.length ∧
        ∀ (i : Nat) (f : JObj), xs[i]? = some (.obj f) →
          ∃ (f2 : JObj), xs2[i]? = some (.obj f2) ∧
            getKey f2 "id" = getKey f "_id" ∧ hasKey f2 "_id" = false) := by
  obtain ⟨o1, bs1, o2, bs2, hp, ho3, hb, hne, hobj⟩ := handleSample_decomp hok
  constructor
  · constructor
    · obtain ⟨bv, hF⟩ := handleLabels_getKey hp "_id"
      rw [hid] at hF
      rw [handleField_non_obj (.str x) (fun l hl => JVal.noConfusion hl)] at hF
      injection hF with hF
      injection hF with hF1 hF2
      rw [ho3, getKey_mapId_id, hne "_id" (by decide), ← hF1]
    · rw [ho3]
      exact hasKey_mapId_uid o2
  · intro k l xs hkid hk hcls hdet
    have hkuid : k ≠ "_id" := by
      intro hh
      rw [hh, hid] at hk
      cases hk
    obtain ⟨bv, hF⟩ := handleLabels_getKey hp k
    rw [hk] at hF
    obtain ⟨pairs, xs2, hpairs, hxs2, hres⟩ := handleField_detections hcls hdet hF
    have ho1k : getKey o1 k = .obj (setKey l "detections" (.arr xs2)) := by
      have := congrArg Prod.fst hres
      simpa using this
    obtain ⟨hlen, helem⟩ := detections_elementwise hpairs hxs2
    refine ⟨setKey l "detections" (.arr xs2), xs2, ?_, getKey_setKey_self _ _ _, hlen, helem⟩
    rw [ho3, getKey_mapId_ne _ _ hkid hkuid]
    exact hobj k _ ho1k

/-- Concrete record exercising the C2 theorem. -/
def c2w : JObj :=
  [("_id", JVal.str "abc"),
   ("preds", JVal.obj [("_cls", JVal.str "Detections"),
     ("detections", JVal.arr [JVal.obj [("_id", JVal.str "d1"), ("label", JVal.str "cat")]])])]

/-- Result of normalizing that record. -/
def c2wRes : JObj :=
  [("preds", JVal.obj [("_cls", JVal.str "Detections"),
     ("detections", JVal.arr [JVal.obj [("label", JVal.str "cat"), ("id", JVal.str "d1")]])]),
   ("id", JVal.str "abc")]

/-- Witness for C2: the theorem applied at a concrete record. -/
theorem c2_identifier_rewrite_witness :
    (getKey c2wRes "id" = .str "abc" ∧ hasKey c2wRes "_id" = false) ∧
    (∀ (k : String) (l : JObj) (xs : List JVal), k ≠ "id" → getKey c2w k = .obj l →
      getKey l "_cls" = .str "Detections" → getKey l "detections" = .arr xs →
      ∃ (l2 : JObj) (xs2 : List JVal), getKey c2wRes k = .obj l2 ∧
        getKey l2 "detections" = .arr xs2 ∧
        xs2.length = xs.length ∧
        ∀ (i : Nat) (f : JObj), xs[i]? = some (.obj f) →
          ∃ (f2 : JObj), xs2[i]? = some (.obj f2) ∧
            getKey f2 "id" = getKey f "_id" ∧ hasKey f2 "_id" = false) :=
  c2_identifier_rewrite (show handleSample c2w = .ok (c2wRes, []) from rfl) rfl

/-- Container record exercising C6: a Detections label with its own internal
identifier. -/
def c6x : JObj :=
  [("preds", JVal.obj [("_cls", JVal.str "Detections"), ("_id", JVal.str "c"),
    ("detections", JVal.arr [])])]

/-- Counterexample to C6 as stated: normalizing a record whose Detections
container itself carries an internal identifier leaves the container with
its _id and without an id, so a recognized list-valued container does not
undergo the identifier rewrite. -/
theorem c6_counterexample :
    handleLabels c6x = .ok (c6x, []) ∧
    (∃ (l : JObj), getKey c6x "preds" = .obj l ∧ getKey l "_cls" = .str "Detections" ∧
      hasKey l "_id" = true ∧ hasKey l "id" = false) :=
  ⟨rfl, ⟨[("_cls", JVal.str "Detections"), ("_id", JVal.str "c"), ("detections", JVal.arr [])],
    rfl, rfl, rfl, rfl⟩⟩

/-- Claim C6 (amended): after label normalization, every label tagged with a
recognized non-list kind, and every element of the detections list of a
Detections label, exposes id set from its former _id with _id removed; the
Detections container object itself is not rewritten: its own id and _id
fields are left unchanged. -/
theorem c6_amended {o o2 : JObj} {bs : List String}
    (hok : handleLabels o = .ok (o2, bs)) :
    ∀ (k : String) (l : JObj), getKey o k = .obj l →
      ((∀ cls, getKey l "_cls" = .str cls → (cls = "Detection" ∨ cls = "Segmentation") →
        ∃ (l2 : JObj), getKey o2 k = .obj l2 ∧
          getKey l2 "id" = getKey l "_id" ∧ hasKey l2 "_id" = false) ∧
      (∀ (xs : List JVal), getKey l "_cls" = .str "Detections" →
        getKey l "detections" = .arr xs →
        ∃ (l2 : JObj), getKey o2 k = .obj l2 ∧
          getKey l2 "id" = getKey l "id" ∧ getKey l2 "_id" = getKey l "_id" ∧
          ∃ (xs2 : List JVal), getKey l2 "detections" = .arr xs2 ∧ xs2.length = xs.length ∧
            ∀ (i : Nat) (f : JObj), xs[i]? = some (.obj f) →
              ∃ (f2 : JObj), xs2[i]? = some (.obj f2) ∧
                getKey f2 "id" = getKey f "_id" ∧ hasKey f2 "_id" = false)) := by
  intro k l hk
  obtain ⟨bv, hF⟩ := handleLabels_getKey hok k
  rw [hk] at hF
  constructor
  · intro cls hcls hone
    have hres := handleField_single hcls hone hF
    have hfst := congrArg Prod.fst hres
    simp only at hfst
    refine ⟨mapId (maskStep l).1, hfst, ?_, hasKey_mapId_uid _⟩
    rw [getKey_mapId_id, maskStep_getKey_ne _ _ (by decide)]
  · intro xs hcls hdet
    obtain ⟨pairs, xs2, hpairs, hxs2, hres⟩ := handleField_detections hcls hdet hF
    have hfst := congrArg Prod.fst hres
    simp only at hfst
    obtain ⟨hlen, helem⟩ := detections_elementwise hpairs hxs2
    exact ⟨setKey l "detections" (.arr xs2), hfst,
      getKey_setKey_ne _ _ _ _ (by decide), getKey_setKey_ne _ _ _ _ (by decide),
      xs2, getKey_setKey_self _ _ _, hlen, helem⟩

/-- Record exercising the amended C6 theorem. -/
def c6w : JObj :=
  [("gt", JVal.obj [("_cls", JVal.str "Detection"), ("_id", JVal.str "q"),
    ("mask", JVal.str "M")]),
   ("preds", JVal.obj [("_cls", JVal.str "Detections"), ("_id", JVal.str "c"),
     ("detections", JVal.arr [JVal.obj [("_id", JVal.str "d1")]])])]

/-- Result of normalizing that record. -/
def c6wRes : JObj :=
  [("gt", JVal.obj [("_cls", JVal.str "Detection"),
    ("mask", JVal.buf "M"), ("id", JVal.str "q")]),
   ("preds", JVal.obj [("_cls", JVal.str "Detections"), ("_id", JVal.str "c"),
     ("detections", JVal.arr [JVal.obj [("id", JVal.str "d1")]])])]

/-- Witness for the amended C6: the theorem applied at a concrete record,
with both the single-kind and the list-kind conjunct instantiated. -/
theorem c6_amended_witness :
    (∃ (l2 : JObj), getKey c6wRes "gt" = JVal.obj l2 ∧
        getKey l2 "id" = JVal.str "q" ∧ hasKey l2 "_id" = false) ∧
    (∃ (l2 : JObj), getKey c6wRes "preds" = JVal.obj l2 ∧
        getKey l2 "id" = JVal.undef ∧ getKey l2 "_id" = JVal.str "c" ∧
        ∃ (xs2 : List JVal), getKey l2 "detections" = JVal.arr xs2 ∧ xs2.length = 1 ∧
          ∃ (f2 : JObj), xs2[0]? = some (JVal.obj f2) ∧
            getKey f2 "id" = JVal.str "d1" ∧ hasKey f2 "_id" = false) := by
  have h := c6_amended (show handleLabels c6w = .ok (c6wRes, ["M"]) from rfl)
  refine ⟨(h "gt" [("_cls", JVal.str "Detection"), ("_id", JVal.str "q"),
      ("mask", JVal.str "M")] rfl).1 "Detection" rfl (Or.inl rfl), ?_⟩
  obtain ⟨l2, h1, h2, h3, xs2, h4, h5, h6⟩ :=
    (h "preds" [("_cls", JVal.str "Detections"), ("_id", JVal.str "c"),
        ("detections", JVal.arr [JVal.obj [("_id", JVal.str "d1")]])] rfl).2
      [JVal.obj [("_id", JVal.str "d1")]] rfl rfl
  obtain ⟨f2, h7, h8, h9⟩ := h6 0 [("_id", JVal.str "d1")] rfl
  exact ⟨l2, h1, h2, h3, xs2, h4, h5, f2, h7, h8, h9⟩

/-! Support for claim C7: erasing public identifier fields at every site the
identifier rewrite can touch, and predicates stating that a record carries
no encoded mask and no internal identifier. -/

/-- Erase the public identifier of a list element. -/
def stripIdElem : JVal → JVal
  | .obj f => .obj (delKey f "id")
  | v => v

/-- Erase the public identifier of every element of an array value. -/
def stripElems : JVal → JVal
  | .arr xs => .arr (xs.map stripIdElem)
  | v => v

/-- Erase the public identifiers of a label value: its own and those of the
elements of its array-valued fields. -/
def stripLabelVal : JVal → JVal
  | .obj f => .obj ((delKey f "id").map (fun p => (p.1, stripElems p.2)))
  | v => v

/-- Erase the public identifiers inside one per-frame record. -/
def stripFrameVal : JVal → JVal
  | .obj f => .obj (f.map (fun p => (p.1, stripLabelVal p.2)))
  | v => v

/-- Erase the public identifiers of a top-level field value, descending into
an array of per-frame records. -/
def stripVal3 : JVal → JVal
  | .arr xs => .arr (xs.map stripFrameVal)
  | v => stripLabelVal v

/-- Erase every public identifier a normalization pass can assign. -/
def stripSample (o : JObj) : JObj :=
  (delKey o "id").map (fun p => (p.1, stripVal3 p.2))

/-- Whether the mask field of a label object is not in encoded (string)
form. -/
def noMaskStr (o : JObj) : Bool :=
  match getKey o "mask" with
  | .str _ => false
  | _ => true

/-- noMaskStr on a list element. -/
def elemNoMask : JVal → Bool
  | .obj f => noMaskStr f
  | _ => true

/-- Whether a field value holds no encoded mask at any site the
DESERIALIZE dispatch can decode. -/
def labelNoMask : JVal → Bool
  | .obj f =>
    (match getKey f "_cls" with
     | .str cls =>
       if cls = "Detection" ∨ cls = "Segmentation" then noMaskStr f
       else if cls = "Detections" then
         (match getKey f "detections" with
          | .arr xs => xs.all elemNoMask
          | _ => true)
       else true
     | _ => true)
  | _ => true

/-- Whether a record holds no encoded mask in any of its fields. -/
def recordNoMask (o : JObj) : Bool := o.all (fun p => labelNoMask p.2)

/-- recordNoMask on one element of a frames array. -/
def frameNoMask : JVal → Bool
  | .obj f => recordNoMask f
  | _ => true

/-- Whether a sample holds no encoded mask, per-frame records included. -/
def sampleNoMask (o : JObj) : Bool :=
  recordNoMask o &&
    (match getKey o "frames" with
     | .arr xs => xs.all frameNoMask
     | _ => true)

/-- Whether a list element carries no internal identifier. -/
def elemNoId : JVal → Bool
  | .obj f => !(hasKey f "_id")
  | _ => true

/-- Whether a field value carries no internal identifier, on the object
itself and on the elements of its array-valued fields. -/
def valNoId : JVal → Bool
  | .obj f =>
    !(hasKey f "_id") && f.all (fun p =>
      match p.2 with
      | .arr xs => xs.all elemNoId
      | _ => true)
  | _ => true

/-- Whether a record carries no internal identifier anywhere the rewrite
looks. -/
def recordNoId (o : JObj) : Bool :=
  !(hasKey o "_id") && o.all (fun p => valNoId p.2)

/-- recordNoId on one element of a frames array. -/
def frameNoId : JVal → Bool
  | .obj f => recordNoId f
  | _ => true

/-- Whether a sample carries no internal identifier, per-frame records
included. -/
def sampleNoId (o : JObj) : Bool :=
  recordNoId o &&
    (match getKey o "frames" with
     | .arr xs => xs.all frameNoId
     | _ => true)

theorem maskStep_noop {o : JObj} (h : noMaskStr o = true) : maskStep o = (o, []) := by
  unfold maskStep
  unfold noMaskStr at h
  cases hm : getKey o "mask" <;> rw [hm] at h <;> first | rfl | exact absurd h (by simp)

theorem maskStepVal_noop {x y : JVal} {bs : List String} (hm : elemNoMask x = true)
    (h : maskStepVal x = .ok (y, bs)) : y = x ∧ bs = [] := by
  cases x with
  | obj f =>
    simp only [elemNoMask] at hm
    simp only [maskStepVal, maskStep_noop hm, Except.ok.injEq, Prod.mk.injEq] at h
    exact ⟨h.1.symm, h.2.symm⟩
  | undef => exact Except.noConfusion h
  | jnull => exact Except.noConfusion h
  | str s =>
    simp only [maskStepVal, Except.ok.injEq, Prod.mk.injEq] at h
    exact ⟨h.1.symm, h.2.symm⟩
  | num n =>
    simp only [maskStepVal, Except.ok.injEq, Prod.mk.injEq] at h
    exact ⟨h.1.symm, h.2.symm⟩
  | bool b =>
    simp only [maskStepVal, Except.ok.injEq, Prod.mk.injEq] at h
    exact ⟨h.1.symm, h.2.symm⟩
  | buf s =>
    simp only [maskStepVal, Except.ok.injEq, Prod.mk.injEq] at h
    exact ⟨h.1.symm, h.2.symm⟩
  | arr xs =>
    simp only [maskStepVal, Except.ok.injEq, Prod.mk.injEq] at h
    exact ⟨h.1.symm, h.2.symm⟩

theorem getKey_mem {o : JObj} {k : String} {v : JVal} (h : getKey o k = v)
    (hne : v ≠ .undef) : (k, v) ∈ o := by
  induction o with
  | nil =>
    simp only [getKey] at h
    exact absurd h.symm hne
  | cons p rest ih =>
    obtain ⟨k0, v0⟩ := p
    by_cases h0 : k0 = k
    · subst h0
      have hv : v0 = v := by simpa [getKey] using h
      simp [hv]
    · simp only [getKey, if_neg h0] at h
      simp [List.mem_cons, ih h]

theorem hasKey_setKey_ne (o : JObj) (k key : String) (v : JVal) (h : k ≠ key) :
    hasKey (setKey o key v) k = hasKey o k := by
  induction o with
  | nil => simp [setKey, hasKey, Ne.symm h]
  | cons p rest ih =>
    obtain ⟨k0, v0⟩ := p
    by_cases h0 : k0 = key
    · subst h0
      simp [setKey, hasKey, Ne.symm h]
    · simp only [setKey, if_neg h0]
      simp only [hasKey, List.any_cons] at ih ⊢
      rw [ih]

theorem map_setKey (o : JObj) (k : String) (v : JVal) (g : JVal → JVal) :
    (setKey o k v).map (fun p => (p.1, g p.2)) =
      setKey (o.map (fun p => (p.1, g p.2))) k (g v) := by
  induction o with
  | nil => simp [setKey]
  | cons p rest ih =>
    obtain ⟨k0, v0⟩ := p
    by_cases h0 : k0 = k
    · subst h0
      simp [setKey]
    · simp [setKey, h0, ih]

theorem getKey_map (o : JObj) (k : String) (g : JVal → JVal) (hg : g .undef = .undef) :
    getKey (o.map (fun p => (p.1, g p.2))) k = g (getKey o k) := by
  induction o with
  | nil => simp [getKey, hg]
  | cons p rest ih =>
    obtain ⟨k0, v0⟩ := p
    by_cases h0 : k0 = k
    · subst h0
      simp [getKey]
    · simp [getKey, h0, ih]

theorem delKey_map (o : JObj) (k : String) (g : JVal → JVal) :
    delKey (o.map (fun p => (p.1, g p.2))) k = (delKey o k).map (fun p => (p.1, g p.2)) := by
  induction o with
  | nil => rfl
  | cons p rest ih =>
    obtain ⟨k0, v0⟩ := p
    by_cases h0 : k0 = k
    · subst h0
      simpa [delKey, List.filter_cons] using ih
    · simp only [List.map_cons, delKey, List.filter_cons, bne_iff_ne, ne_eq, h0,
        not_false_eq_true, if_pos] at ih ⊢
      simpa [delKey] using ih

theorem stripLabelVal_setKey_id (f : JObj) (w : JVal) :
    stripLabelVal (.obj (setKey f "id" w)) = stripLabelVal (.obj f) := by
  simp [stripLabelVal, delKey_setKey_self]

theorem mem_of_idx {α : Type} {l : List α} {i : Nat} {a : α} (h : l[i]? = some a) :
    a ∈ l := by
  rw [List.getElem?_eq_some] at h
  obtain ⟨hlt, rfl⟩ := h
  exact List.getElem_mem hlt

theorem handleField_untagged {l : JObj} (hcls : ∀ s, getKey l "_cls" ≠ .str s) :
    handleField (.obj l) = .ok (.obj l, []) := by
  cases hc : getKey l "_cls" with
  | str s => exact absurd hc (hcls s)
  | undef => simp [handleField, truthy, hc]
  | jnull => simp [handleField, truthy, hc]
  | bool b => simp [handleField, truthy, hc]
  | num n => simp [handleField, truthy, hc]
  | buf s => simp [handleField, truthy, hc]
  | arr xs => simp [handleField, truthy, hc]
  | obj f => simp [handleField, truthy, hc]

theorem handleField_other {l : JObj} {cls : String} (hcls : getKey l "_cls" = .str cls)
    (h1 : cls ≠ "Detection") (h2 : cls ≠ "Detections") (h3 : cls ≠ "Segmentation") :
    handleField (.obj l) = .ok (.obj l, []) := by
  have hu : handleField (.obj l) = (deserializeStep cls l >>= fun p =>
      labelsStep cls p.1 >>= fun o2 => Except.ok (.obj o2, p.2)) := by
    simp [handleField, truthy, hcls]
  have hd : deserializeStep cls l = .ok (l, []) := by
    simp [deserializeStep, h1, h2, h3]
  have hc : LABELS.contains cls = false := by
    simp [LABELS, List.contains, h1, h2, h3]
  have hl : labelsStep cls l = .ok l := by
    unfold labelsStep
    rw [hc]
    simp
  rw [hu, hd, ebind_ok]
  dsimp only
  rw [hl, ebind_ok]

theorem handleField_detections_arr {l : JObj} {res : JVal × List String}
    (hcls : getKey l "_cls" = .str "Detections")
    (h : handleField (.obj l) = .ok res) :
    ∃ xs, getKey l "detections" = .arr xs := by
  have hu : handleField (.obj l) = (deserializeStep "Detections" l >>= fun p =>
      labelsStep "Detections" p.1 >>= fun o2 => Except.ok (.obj o2, p.2)) := by
    simp [handleField, truthy, hcls]
  rw [hu] at h
  cases hdet : getKey l "detections"
  case arr xs => exact ⟨xs, rfl⟩
  all_goals {
    have h2 : deserializeStep "Detections" l = .error () := by
      simp [deserializeStep, hdet]
    rw [h2] at h
    exact Except.noConfusion h }

theorem handleField_strip (g : JVal → JVal)
    (hg : ∀ f, g (.obj f) = stripLabelVal (.obj f))
    {v : JVal} {res : JVal × List String}
    (hm : labelNoMask v = true) (hi : valNoId v = true)
    (h : handleField v = .ok res) :
    res.2 = [] ∧ g res.1 = g v := by
  cases v with
  | obj l =>
    cases hcls : getKey l "_cls" with
    | str cls =>
      by_cases hone : cls = "Detection" ∨ cls = "Segmentation"
      · have hres := handleField_single hcls hone h
        have hmask : noMaskStr l = true := by
          simpa [labelNoMask, hcls, hone] using hm
        have hid : hasKey l "_id" = false := by
          simp only [valNoId, Bool.and_eq_true, Bool.not_eq_true'] at hi
          exact hi.1
        rw [maskStep_noop hmask] at hres
        rw [hres]
        refine ⟨rfl, ?_⟩
        rw [hg, hg, mapId_of_no_uid _ hid, stripLabelVal_setKey_id]
      · by_cases hdets : cls = "Detections"
        · subst hdets
          obtain ⟨xs, hdet⟩ := handleField_detections_arr hcls h
          obtain ⟨pairs, xs2, hpairs, hxs2, hres⟩ := handleField_detections hcls hdet h
          have hmask : xs.all elemNoMask = true := by
            simpa [labelNoMask, hcls, hdet] using hm
          have hpairswise : pairs = xs.map (fun x => (x, ([] : List String))) := by
            apply List.ext_getElem?
            intro i
            rw [List.getElem?_map]
            by_cases hilt : i < xs.length
            · obtain ⟨a, ha⟩ : ∃ a, xs[i]? = some a :=
                ⟨_, List.getElem?_eq_getElem hilt⟩
              obtain ⟨b, hbi, hbv⟩ := exMapM_ok_get hpairs i a ha
              have hma : elemNoMask a = true :=
                List.all_eq_true.mp hmask a (mem_of_idx ha)
              have hbval : b = (a, []) := by
                obtain ⟨b1, b2⟩ := b
                obtain ⟨e1, e2⟩ := maskStepVal_noop hma hbv
                rw [e1, e2]
              rw [hbi, ha, hbval]
              rfl
            · have hxn : xs[i]? = none := List.getElem?_eq_none (le_of_not_lt hilt)
              have hpn : pairs[i]? = none := by
                apply List.getElem?_eq_none
                rw [exMapM_ok_length hpairs]
                exact le_of_not_lt hilt
              rw [hxn, hpn]
              rfl
          have hr2 : res.2 = [] := by
            rw [hres]
            simp [hpairswise, List.map_map, Function.comp_def]
          have hfst : pairs.map (·.1) = xs := by
            rw [hpairswise]
            simp [List.map_map, Function.comp_def]
          rw [hfst] at hxs2
          have hids : xs.all elemNoId = true := by
            have hmem := getKey_mem hdet (by simp)
            have hall : l.all (fun p =>
                match p.2 with
                | .arr ys => ys.all elemNoId
                | _ => true) = true := by
              simp only [valNoId, Bool.and_eq_true] at hi
              exact hi.2
            exact List.all_eq_true.mp hall _ hmem
          have hstrip_elems : xs2.map stripIdElem = xs.map stripIdElem := by
            apply List.ext_getElem?
            intro i
            rw [List.getElem?_map, List.getElem?_map]
            by_cases hilt : i < xs.length
            · obtain ⟨a, ha⟩ : ∃ a, xs[i]? = some a :=
                ⟨_, List.getElem?_eq_getElem hilt⟩
              obtain ⟨c, hci, hcv⟩ := exMapM_ok_get hxs2 i a ha
              cases a with
              | obj fa =>
                have hcval : c = .obj (mapId fa) := by
                  simp only [mapIdVal, Except.ok.injEq] at hcv
                  exact hcv.symm
                have hane : elemNoId (.obj fa) = true :=
                  List.all_eq_true.mp hids _ (mem_of_idx ha)
                have haid : hasKey fa "_id" = false := by
                  simpa [elemNoId] using hane
                rw [hci, ha, hcval]
                simp [mapId_of_no_uid _ haid, stripIdElem, delKey_setKey_self]
              | undef => exact Except.noConfusion hcv
              | jnull => exact Except.noConfusion hcv
              | bool b => exact Except.noConfusion hcv
              | num n => exact Except.noConfusion hcv
              | str s => exact Except.noConfusion hcv
              | buf s => exact Except.noConfusion hcv
              | arr ys => exact Except.noConfusion hcv
            · have hxn : xs[i]? = none := List.getElem?_eq_none (le_of_not_lt hilt)
              have hx2n : xs2[i]? = none := by
                apply List.getElem?_eq_none
                rw [exMapM_ok_length hxs2]
                exact le_of_not_lt hilt
              rw [hxn, hx2n]
          refine ⟨hr2, ?_⟩
          have hres1 : res.1 = .obj (setKey l "detections" (.arr xs2)) := by rw [hres]
          rw [hres1, hg, hg]
          simp only [stripLabelVal]
          rw [delKey_setKey_ne _ _ _ _ (by decide), map_setKey]
          have hget : getKey ((delKey l "id").map (fun p => (p.1, stripElems p.2)))
              "detections" = .arr (xs.map stripIdElem) := by
            rw [getKey_map _ _ _ rfl, getKey_delKey_ne _ _ _ (by decide), hdet]
            rfl
          have hse : stripElems (.arr xs2) = .arr (xs.map stripIdElem) := by
            simp [stripElems, hstrip_elems]
          rw [hse]
          rw [setKey_getKey_self _ _ _ hget (by simp)]
        · rw [handleField_other hcls (fun he => hone (Or.inl he)) hdets
            (fun he => hone (Or.inr he))] at h
          injection h with h
          rw [← h]
          exact ⟨rfl, rfl⟩
    | undef =>
      rw [handleField_untagged (fun s hs => by rw [hcls] at hs; cases hs)] at h
      injection h with h
      rw [← h]
      exact ⟨rfl, rfl⟩
    | jnull =>
      rw [handleField_untagged (fun s hs => by rw [hcls] at hs; cases hs)] at h
      injection h with h
      rw [← h]
      exact ⟨rfl, rfl⟩
    | bool b =>
      rw [handleField_untagged (fun s hs => by rw [hcls] at hs; cases hs)] at h
      injection h with h
      rw [← h]
      exact ⟨rfl, rfl⟩
    | num n =>
      rw [handleField_untagged (fun s hs => by rw [hcls] at hs; cases hs)] at h
      injection h with h
      rw [← h]
      exact ⟨rfl, rfl⟩
    | buf s =>
      rw [handleField_untagged (fun s hs => by rw [hcls] at hs; cases hs)] at h
      injection h with h
      rw [← h]
      exact ⟨rfl, rfl⟩
    | arr ys =>
      rw [handleField_untagged (fun s hs => by rw [hcls] at hs; cases hs)] at h
      injection h with h
      rw [← h]
      exact ⟨rfl, rfl⟩
    | obj f =>
      rw [handleField_untagged (fun s hs => by rw [hcls] at hs; cases hs)] at h
      injection h with h
      rw [← h]
      exact ⟨rfl, rfl⟩
  | undef =>
    rw [handleField_non_obj _ (fun l hl => JVal.noConfusion hl)] at h
    injection h with h
    rw [← h]
    exact ⟨rfl, rfl⟩
  | jnull =>
    rw [handleField_non_obj _ (fun l hl => JVal.noConfusion hl)] at h
    injection h with h
    rw [← h]
    exact ⟨rfl, rfl⟩
  | bool b =>
    rw [handleField_non_obj _ (fun l hl => JVal.noConfusion hl)] at h
    injection h with h
    rw [← h]
    exact ⟨rfl, rfl⟩
  | num n =>
    rw [handleField_non_obj _ (fun l hl => JVal.noConfusion hl)] at h
    injection h with h
    rw [← h]
    exact ⟨rfl, rfl⟩
  | str s =>
    rw [handleField_non_obj _ (fun l hl => JVal.noConfusion hl)] at h
    injection h with h
    rw [← h]
    exact ⟨rfl, rfl⟩
  | buf s =>
    rw [handleField_non_obj _ (fun l hl => JVal.noConfusion hl)] at h
    injection h with h
    rw [← h]
    exact ⟨rfl, rfl⟩
  | arr ys =>
    rw [handleField_non_obj _ (fun l hl => JVal.noConfusion hl)] at h
    injection h with h
    rw [← h]
    exact ⟨rfl, rfl⟩

theorem handleLabels_strip (g : JVal → JVal)
    (hg : ∀ f, g (.obj f) = stripLabelVal (.obj f))
    {o o2 : JObj} {bs : List String}
    (hm : recordNoMask o = true) (hi : o.all (fun p => valNoId p.2) = true)
    (h : handleLabels o = .ok (o2, bs)) :
    bs = [] ∧ o2.map (fun p => (p.1, g p.2)) = o.map (fun p => (p.1, g p.2)) := by
  induction o generalizing o2 bs with
  | nil =>
    simp only [handleLabels, Except.ok.injEq, Prod.mk.injEq] at h
    rw [← h.1, ← h.2]
    exact ⟨rfl, rfl⟩
  | cons p rest ih =>
    obtain ⟨k0, v0⟩ := p
    simp only [recordNoMask, List.all_cons, Bool.and_eq_true] at hm
    simp only [List.all_cons, Bool.and_eq_true] at hi
    simp only [handleLabels] at h
    cases hp : handleField v0 with
    | error e => rw [hp, ebind_error] at h; exact Except.noConfusion h
    | ok pr =>
      rw [hp, ebind_ok] at h
      cases hq : handleLabels rest with
      | error e => rw [hq, ebind_error] at h; exact Except.noConfusion h
      | ok qr =>
        rw [hq, ebind_ok] at h
        simp only [Except.ok.injEq, Prod.mk.injEq] at h
        obtain ⟨hfs, hgs⟩ := handleField_strip g hg hm.1 hi.1 hp
        obtain ⟨ih1, ih2⟩ := ih hm.2 hi.2 (by rw [hq])
        rw [← h.1, ← h.2]
        constructor
        · simp [hfs, ih1]
        · simp only [List.map_cons, ih2, hgs]

theorem handleFrame_strip {v : JVal} {res : JVal × List String}
    (hm : frameNoMask v = true) (hi : frameNoId v = true)
    (h : handleFrame v = .ok res) :
    res.2 = [] ∧ stripFrameVal res.1 = stripFrameVal v := by
  cases v with
  | obj f =>
    simp only [frameNoMask] at hm
    simp only [frameNoId] at hi
    simp only [handleFrame] at h
    cases hq : handleLabels f with
    | error e => rw [hq, ebind_error] at h; exact Except.noConfusion h
    | ok qr =>
      rw [hq, ebind_ok] at h
      injection h with h
      have hi2 : f.all (fun p => valNoId p.2) = true := by
        simp only [recordNoId, Bool.and_eq_true] at hi
        exact hi.2
      obtain ⟨h1, h2⟩ :=
        handleLabels_strip stripLabelVal (fun _ => rfl) hm hi2 (by rw [hq])
      rw [← h]
      refine ⟨h1, ?_⟩
      simp only [stripFrameVal]
      rw [h2]
  | undef => injection h with h; rw [← h]; exact ⟨rfl, rfl⟩
  | jnull => injection h with h; rw [← h]; exact ⟨rfl, rfl⟩
  | bool b => injection h with h; rw [← h]; exact ⟨rfl, rfl⟩
  | num n => injection h with h; rw [← h]; exact ⟨rfl, rfl⟩
  | str s => injection h with h; rw [← h]; exact ⟨rfl, rfl⟩
  | buf s => injection h with h; rw [← h]; exact ⟨rfl, rfl⟩
  | arr ys => injection h with h; rw [← h]; exact ⟨rfl, rfl⟩

theorem handleField_obj_out {l : JObj} {res : JVal × List String}
    (h : handleField (.obj l) = .ok res) : ∃ l2, res.1 = .obj l2 := by
  cases hcls : getKey l "_cls" with
  | str cls =>
    have hu : handleField (.obj l) = (deserializeStep cls l >>= fun p =>
        labelsStep cls p.1 >>= fun o2 => Except.ok (.obj o2, p.2)) := by
      simp [handleField, truthy, hcls]
    rw [hu] at h
    cases hd : deserializeStep cls l with
    | error e => rw [hd] at h; exact Except.noConfusion h
    | ok p =>
      rw [hd, ebind_ok] at h
      cases hl : labelsStep cls p.1 with
      | error e => rw [hl] at h; exact Except.noConfusion h
      | ok o2 =>
        rw [hl, ebind_ok] at h
        injection h with h
        exact ⟨o2, by rw [← h]⟩
  | undef =>
    rw [handleField_untagged (fun s hs => by rw [hcls] at hs; cases hs)] at h
    injection h with h
    exact ⟨l, by rw [← h]⟩
  | jnull =>
    rw [handleField_untagged (fun s hs => by rw [hcls] at hs; cases hs)] at h
    injection h with h
    exact ⟨l, by rw [← h]⟩
  | bool b =>
    rw [handleField_untagged (fun s hs => by rw [hcls] at hs; cases hs)] at h
    injection h with h
    exact ⟨l, by rw [← h]⟩
  | num n =>
    rw [handleField_untagged (fun s hs => by rw [hcls] at hs; cases hs)] at h
    injection h with h
    exact ⟨l, by rw [← h]⟩
  | buf s =>
    rw [handleField_untagged (fun s hs => by rw [hcls] at hs; cases hs)] at h
    injection h with h
    exact ⟨l, by rw [← h]⟩
  | arr ys =>
    rw [handleField_untagged (fun s hs => by rw [hcls] at hs; cases hs)] at h
    injection h with h
    exact ⟨l, by rw [← h]⟩
  | obj f =>
    rw [handleField_untagged (fun s hs => by rw [hcls] at hs; cases hs)] at h
    injection h with h
    exact ⟨l, by rw [← h]⟩

theorem handleField_arr_inv {v : JVal} {xs : List JVal} {bv : List String}
    (h : handleField v = .ok (.arr xs, bv)) : v = .arr xs := by
  cases v with
  | obj l =>
    obtain ⟨l2, hl2⟩ := handleField_obj_out h
    exact absurd hl2 (by simp)
  | arr ys =>
    rw [handleField_non_obj _ (fun l hl => JVal.noConfusion hl)] at h
    injection h with h
    injection h with h1 h2
  | undef =>
    rw [handleField_non_obj _ (fun l hl => JVal.noConfusion hl)] at h
    injection h with h
    injection h
  | jnull =>
    rw [handleField_non_obj _ (fun l hl => JVal.noConfusion hl)] at h
    injection h with h
    injection h
  | bool b =>
    rw [handleField_non_obj _ (fun l hl => JVal.noConfusion hl)] at h
    injection h with h
    injection h
  | num n =>
    rw [handleField_non_obj _ (fun l hl => JVal.noConfusion hl)] at h
    injection h with h
    injection h
  | str s =>
    rw [handleField_non_obj _ (fun l hl => JVal.noConfusion hl)] at h
    injection h with h
    injection h
  | buf s =>
    rw [handleField_non_obj _ (fun l hl => JVal.noConfusion hl)] at h
    injection h with h
    injection h

/-- Record with no encoded masks and no internal identifiers. -/
def c7x : JObj := [("filepath", JVal.str "f")]

/-- Counterexample to C7 as stated: normalizing a record with no encoded
binary fields and no internal identifier field is not a no-op on the
record: it adds a public identifier key holding undefined. -/
theorem c7_counterexample :
    sampleNoMask c7x = true ∧ sampleNoId c7x = true ∧
    handleSample c7x = .ok ([("filepath", JVal.str "f"), ("id", JVal.undef)], []) ∧
    [("filepath", JVal.str "f"), ("id", JVal.undef)] ≠ c7x := by
  refine ⟨rfl, rfl, rfl, ?_⟩
  intro hcontra
  have hlen := congrArg List.length hcontra
  simp [c7x] at hlen

/-- Claim C7 (amended): normalizing a record with no encoded binary fields
and no internal identifier anywhere returns no buffers and performs only
the identifier rewrites: after erasing public identifier fields at every
rewrite site, the record is unchanged, and the top-level public identifier
is set to undefined. -/
theorem c7_amended {o o3 : JObj} {bufs : List String}
    (hm : sampleNoMask o = true) (hi : sampleNoId o = true)
    (hok : handleSample o = .ok (o3, bufs)) :
    bufs = [] ∧ stripSample o3 = stripSample o ∧ getKey o3 "id" = .undef := by
  simp only [sampleNoMask, Bool.and_eq_true] at hm
  simp only [sampleNoId, Bool.and_eq_true] at hi
  obtain ⟨hm1, hm2⟩ := hm
  obtain ⟨hi1, hi2⟩ := hi
  have hi1f : o.all (fun p => valNoId p.2) = true := by
    simp only [recordNoId, Bool.and_eq_true] at hi1
    exact hi1.2
  have hiuid : hasKey o "_id" = false := by
    simp only [recordNoId, Bool.and_eq_true, Bool.not_eq_true'] at hi1
    exact hi1.1
  simp only [handleSample] at hok
  cases hp : handleLabels o with
  | error e => rw [hp, ebind_error] at hok; exact Except.noConfusion hok
  | ok pr =>
    rw [hp, ebind_ok] at hok
    obtain ⟨o1, bs1⟩ := pr
    dsimp only at hok
    obtain ⟨hbs1, hmap1⟩ :=
      handleLabels_strip stripVal3 (fun _ => rfl) hm1 hi1f (by rw [hp])
    have huid1 : hasKey o1 "_id" = false := by
      have hh := handleLabels_hasKey (show handleLabels o = .ok (o1, bs1) by rw [hp]) "_id"
      rw [hiuid] at hh
      exact hh
    have hfinish : (Except.ok (mapId o1, bs1 ++ []) : Except Unit (JObj × List String))
        = Except.ok (o3, bufs) →
        bufs = [] ∧ stripSample o3 = stripSample o ∧ getKey o3 "id" = .undef := by
      intro hcase
      injection hcase with hcase
      injection hcase with ha hb
      have hmid : mapId o1 = setKey o1 "id" .undef := mapId_of_no_uid _ huid1
      refine ⟨by simp [← hb, hbs1], ?_, ?_⟩
      · rw [← ha, hmid]
        unfold stripSample
        rw [delKey_setKey_self, ← delKey_map, hmap1, delKey_map]
      · rw [← ha, hmid, getKey_setKey_self]
    split at hok
    case h_1 xs heq =>
      split at hok
      case isTrue hlen =>
        rw [ebind_ok] at hok
        exact hfinish hok
      case isFalse hlen =>
        have hof : getKey o "frames" = .arr xs := by
          obtain ⟨bv, hF⟩ :=
            handleLabels_getKey (show handleLabels o = .ok (o1, bs1) by rw [hp]) "frames"
          rw [heq] at hF
          exact handleField_arr_inv hF
        have hmf : ∀ v ∈ xs, frameNoMask v = true := by
          rw [hof] at hm2
          exact List.all_eq_true.mp hm2
        have hif : ∀ v ∈ xs, frameNoId v = true := by
          rw [hof] at hi2
          exact List.all_eq_true.mp hi2
        cases hpairs : exMapM handleFrame xs with
        | error e => rw [hpairs] at hok; exact Except.noConfusion hok
        | ok pairs =>
          rw [hpairs] at hok
          injection hok with hok
          injection hok with ha hb
          have helem : ∀ (i : Nat) (v : JVal), xs[i]? = some v →
              ∃ (b : JVal × List String), pairs[i]? = some b ∧
              b.2 = [] ∧ stripFrameVal b.1 = stripFrameVal v := by
            intro i v hv
            obtain ⟨b, hbi, hbv⟩ := exMapM_ok_get hpairs i v hv
            obtain ⟨e1, e2⟩ :=
              handleFrame_strip (hmf v (mem_of_idx hv)) (hif v (mem_of_idx hv)) hbv
            exact ⟨b, hbi, e1, e2⟩
          have hsnd : bufs = [] := by
            rw [← hb, hbs1]
            simp only [List.nil_append]
            rw [List.flatten_eq_nil_iff]
            intro l hl
            rw [List.mem_map] at hl
            obtain ⟨b, hbmem, hbl⟩ := hl
            obtain ⟨i, hbi⟩ := List.mem_iff_getElem?.mp hbmem
            have hilt : i < xs.length := by
              rw [← exMapM_ok_length hpairs]
              exact (List.getElem?_eq_some.mp hbi).1
            obtain ⟨v, hv⟩ : ∃ v, xs[i]? = some v := ⟨_, List.getElem?_eq_getElem hilt⟩
            obtain ⟨b2, hb2i, hb2snd, _⟩ := helem i v hv
            rw [hbi] at hb2i
            injection hb2i with hb2i
            rw [← hbl, hb2i]
            exact hb2snd
          have hfm : (pairs.map (·.1)).map stripFrameVal = xs.map stripFrameVal := by
            apply List.ext_getElem?
            intro i
            rw [List.getElem?_map, List.getElem?_map, List.getElem?_map]
            by_cases hilt : i < xs.length
            · obtain ⟨v, hv⟩ : ∃ v, xs[i]? = some v := ⟨_, List.getElem?_eq_getElem hilt⟩
              obtain ⟨b, hbi, _, hstr⟩ := helem i v hv
              rw [hbi, hv]
              simp [hstr]
            · have hn1 : xs[i]? = none := List.getElem?_eq_none (le_of_not_lt hilt)
              have hn2 : pairs[i]? = none := by
                apply List.getElem?_eq_none
                rw [exMapM_ok_length hpairs]
                exact le_of_not_lt hilt
              rw [hn1, hn2]
              rfl
          refine ⟨hsnd, ?_, ?_⟩
          · rw [← ha]
            have hmid2 : hasKey (setKey o1 "frames" (.arr (pairs.map (·.1)))) "_id"
                = false := by
              rw [hasKey_setKey_ne _ _ _ _ (by decide)]
              exact huid1
            rw [mapId_of_no_uid _ hmid2]
            unfold stripSample
            rw [delKey_setKey_self]
            rw [delKey_setKey_ne _ _ _ _ (by decide), map_setKey]
            have hbase : (delKey o1 "id").map (fun p => (p.1, stripVal3 p.2)) =
                (delKey o "id").map (fun p => (p.1, stripVal3 p.2)) := by
              rw [← delKey_map, hmap1, delKey_map]
            rw [hbase]
            have hsv : stripVal3 (.arr (pairs.map (·.1))) = .arr (xs.map stripFrameVal) := by
              simp [stripVal3, hfm]
            rw [hsv]
            apply setKey_getKey_self
            · rw [getKey_map _ _ _ rfl, getKey_delKey_ne _ _ _ (by decide), hof]
              rfl
            · simp
          · rw [← ha, getKey_mapId_id, getKey_setKey_ne _ _ _ _ (by decide),
              getKey_of_hasKey_false _ _ huid1]
    case h_2 s heq =>
      split at hok
      case isTrue hs =>
        rw [ebind_ok] at hok
        exact hfinish hok
      case isFalse hs =>
        rw [ebind_error] at hok
        exact Except.noConfusion hok
    case h_3 f heq =>
      split at hok
      case isTrue ht =>
        rw [ebind_error] at hok
        exact Except.noConfusion hok
      case isFalse ht =>
        rw [ebind_ok] at hok
        exact hfinish hok
    case h_4 s heq =>
      rw [ebind_error] at hok
      exact Except.noConfusion hok
    case h_5 v heq hne =>
      rw [ebind_ok] at hok
      exact hfinish hok

/-- Record with a recognized label, no masks and no internal identifiers. -/
def c7w : JObj :=
  [("filepath", JVal.str "f"),
   ("gt", JVal.obj [("_cls", JVal.str "Detection"), ("label", JVal.str "cat")])]

/-- Result of normalizing that record. -/
def c7wRes : JObj :=
  [("filepath", JVal.str "f"),
   ("gt", JVal.obj [("_cls", JVal.str "Detection"), ("label", JVal.str "cat"),
     ("id", JVal.undef)]),
   ("id", JVal.undef)]

/-- Witness for the amended C7: the theorem applied at a concrete record. -/
theorem c7_amended_witness :
    ([] : List String) = [] ∧
    stripSample c7wRes = stripSample c7w ∧ getKey c7wRes "id" = .undef :=
  c7_amended rfl rfl (show handleSample c7w = .ok (c7wRes, []) from rfl)

/-! Embedding of createReader (worker.ts): the pull and cancel callbacks of
the chunked frame source, with the network fetch abstracted as an oracle
from the cursor to the returned chunk range. -/

/-- The per-source state captured by the pull closure: the frameNumber
cursor and the cancelled flag. -/
structure ReaderState where
  frameNumber : Nat
  cancelled : Bool
deriving DecidableEq

/-- What one pull demand produces: the stream closes, or a chunk with a
frame range is enqueued. -/
inductive PullResult where
  | closed : PullResult
  | chunk (lo hi : Nat) : PullResult
deriving DecidableEq

/-- Result of one pull: the produced result, the updated closure state, and
the cursor of the network request issued by this pull, if any. -/
structure PullOutcome where
  result : PullResult
  state : ReaderState
  fetched : Option Nat
deriving DecidableEq

/-- Embedding of the pull callback: when the cursor has reached the frame
count or the source is cancelled, the stream closes without a request;
otherwise exactly one fetch for the current cursor is issued, the returned
chunk is enqueued, and the cursor becomes the range upper bound plus one. -/
def pull (frameCount : Nat) (fetch : Nat → Nat × Nat) (s : ReaderState) : PullOutcome :=
  if frameCount ≤ s.frameNumber ∨ s.cancelled = true then
    ⟨.closed, s, none⟩
  else
    let r := fetch s.frameNumber
    ⟨.chunk r.1 r.2, ⟨r.2 + 1, s.cancelled⟩, some s.frameNumber⟩

/-- Embedding of the cancel callback: set the cancelled flag. -/
def cancelReader (s : ReaderState) : ReaderState := ⟨s.frameNumber, true⟩

/-- The fetch contract of the remote frame source assumed by claim C1: a
request at cursor n answers with the chunk range from n to
min (n + C - 1) (F - 1). -/
def honestFetch (C F : Nat) : Nat → Nat × Nat :=
  fun n => (n, min (n + C - 1) (F - 1))

/-- Chunk ranges delivered by successive pulls until the stream closes,
with the state left after the last delivered chunk; fuel bounds the number
of pulls. -/
def runReader (frameCount : Nat) (fetch : Nat → Nat × Nat) :
    ReaderState → Nat → List (Nat × Nat) × ReaderState
  | s, 0 => ([], s)
  | s, fuel+1 =>
    match pull frameCount fetch s with
    | ⟨.closed, _, _⟩ => ([], s)
    | ⟨.chunk lo hi, s2, _⟩ =>
      let rest := runReader frameCount fetch s2 fuel
      ((lo, hi) :: rest.1, rest.2)

/-- The list of frame numbers a chunk range covers. -/
def interval (p : Nat × Nat) : List Nat := List.range' p.1 (p.2 + 1 - p.1)

theorem runReader_honest (C F : Nat) (hC : 0 < C) :
    ∀ (fuel n : Nat), n ≤ F → F - n ≤ fuel →
      ((runReader F (honestFetch C F) ⟨n, false⟩ fuel).1.flatMap interval
          = List.range' n (F - n)) ∧
      F ≤ (runReader F (honestFetch C F) ⟨n, false⟩ fuel).2.frameNumber ∧
      (runReader F (honestFetch C F) ⟨n, false⟩ fuel).2.cancelled = false ∧
      List.Chain' (fun p q => q.1 = p.2 + 1)
        (runReader F (honestFetch C F) ⟨n, false⟩ fuel).1 ∧
      (∀ p ∈ (runReader F (honestFetch C F) ⟨n, false⟩ fuel).1, p.1 ≤ p.2) ∧
      (∀ p ∈ (runReader F (honestFetch C F) ⟨n, false⟩ fuel).1.head?, p.1 = n) := by
  intro fuel
  induction fuel with
  | zero =>
    intro n hn hfuel
    have hnF : n = F := by omega
    subst hnF
    simp [runReader, List.range']
  | succ fuel ih =>
    intro n hn hfuel
    by_cases hlt : n < F
    · have hpull : pull F (honestFetch C F) ⟨n, false⟩ =
          ⟨.chunk n (min (n + C - 1) (F - 1)), ⟨min (n + C - 1) (F - 1) + 1, false⟩,
            some n⟩ := by
        unfold pull
        rw [if_neg (by simp; omega)]
        rfl
      have hm1 : min (n + C - 1) (F - 1) + 1 = min (n + C) F := by omega
      have hn2le : min (n + C) F ≤ F := by omega
      have hfuel2 : F - min (n + C) F ≤ fuel := by omega
      obtain ⟨ih1, ih2, ih3, ih4, ih5, ih6⟩ := ih (min (n + C) F) hn2le hfuel2
      have hrun : runReader F (honestFetch C F) ⟨n, false⟩ (fuel + 1) =
          ((n, min (n + C - 1) (F - 1)) ::
            (runReader F (honestFetch C F) ⟨min (n + C) F, false⟩ fuel).1,
           (runReader F (honestFetch C F) ⟨min (n + C) F, false⟩ fuel).2) := by
        conv_lhs => rw [runReader]
        rw [hpull]
        dsimp only
        rw [hm1]
      rw [hrun]
      refine ⟨?_, ih2, ih3, ?_, ?_, ?_⟩
      · simp only [List.flatMap_cons, ih1]
        unfold interval
        have hlen : min (n + C - 1) (F - 1) + 1 - n = min (n + C) F - n := by omega
        rw [hlen]
        have happ := List.range'_append_1 n (min (n + C) F - n) (F - min (n + C) F)
        rw [Nat.add_sub_cancel' (by omega : n ≤ min (n + C) F)] at happ
        rw [happ]
        congr 1
        omega
      · rw [List.chain'_cons']
        refine ⟨?_, ih4⟩
        intro q hq
        rw [ih6 q hq, hm1]
      · intro p hp
        rcases List.mem_cons.mp hp with hp | hp
        · rw [hp]
          simp
          omega
        · exact ih5 p hp
      · intro p hp
        simp only [List.head?_cons, Option.mem_def, Option.some.injEq] at hp
        rw [← hp]
    · have hge : F ≤ n := by omega
      have hpull : pull F (honestFetch C F) ⟨n, false⟩ = ⟨.closed, ⟨n, false⟩, none⟩ := by
        unfold pull
        rw [if_pos (Or.inl hge)]
      have hrun : runReader F (honestFetch C F) ⟨n, false⟩ (fuel + 1) =
          ([], ⟨n, false⟩) := by
        conv_lhs => rw [runReader]
        rw [hpull]
      rw [hrun]
      have h0 : F - n = 0 := by omega
      rw [h0]
      simp [List.range', hge]

/-- Claim C1: with an honest remote source of frame count F and chunk size
C, the pulls of a fresh reader starting at cursor 0 deliver chunk ranges
that partition the interval from 0 to F-1 in order, contiguously and
non-overlappingly; the pull after the last chunk closes the stream without
a request, and any pull that produces a chunk moves the cursor to the
range upper bound plus one and issues exactly the fetch at the old
cursor. -/
theorem c1_chunk_ordering (C F : Nat) (hC : 0 < C) (hF : 0 < F) :
    ((runReader F (honestFetch C F) ⟨0, false⟩ F).1.flatMap interval = List.range F ∧
     List.Chain' (fun p q => q.1 = p.2 + 1) (runReader F (honestFetch C F) ⟨0, false⟩ F).1 ∧
     (∀ p ∈ (runReader F (honestFetch C F) ⟨0, false⟩ F).1, p.1 ≤ p.2) ∧
     (pull F (honestFetch C F) (runReader F (honestFetch C F) ⟨0, false⟩ F).2).result
        = .closed ∧
     (pull F (honestFetch C F) (runReader F (honestFetch C F) ⟨0, false⟩ F).2).fetched
        = none) ∧
    (∀ (fetch : Nat → Nat × Nat) (s : ReaderState) (lo hi : Nat),
      (pull F fetch s).result = .chunk lo hi →
      (pull F fetch s).state.frameNumber = hi + 1 ∧
      (pull F fetch s).fetched = some s.frameNumber) := by
  obtain ⟨h1, h2, h3, h4, h5, h6⟩ :=
    runReader_honest C F hC F 0 (Nat.zero_le F) (by omega)
  constructor
  · refine ⟨by rw [h1, Nat.sub_zero, List.range_eq_range'], h4, h5, ?_, ?_⟩
    · unfold pull
      rw [if_pos (Or.inl h2)]
    · unfold pull
      rw [if_pos (Or.inl h2)]
  · intro fetch s lo hi hres
    unfold pull at hres ⊢
    by_cases hc : F ≤ s.frameNumber ∨ s.cancelled = true
    · rw [if_pos hc] at hres
      exact absurd hres (by simp)
    · rw [if_neg hc] at hres ⊢
      simp only [PullResult.chunk.injEq] at hres
      simp [← hres.2]

/-- Witness for C1: chunk size 2 and frame count 5 produce the ranges
[0,1], [2,3], [4,4] and the next pull closes the stream. -/
theorem c1_chunk_ordering_witness :
    (0 < 2 ∧ 0 < 5 ∧
      (runReader 5 (honestFetch 2 5) ⟨0, false⟩ 5).1 = [(0, 1), (2, 3), (4, 4)]) ∧
    (((runReader 5 (honestFetch 2 5) ⟨0, false⟩ 5).1.flatMap interval = List.range 5 ∧
     List.Chain' (fun p q => q.1 = p.2 + 1) (runReader 5 (honestFetch 2 5) ⟨0, false⟩ 5).1 ∧
     (∀ p ∈ (runReader 5 (honestFetch 2 5) ⟨0, false⟩ 5).1, p.1 ≤ p.2) ∧
     (pull 5 (honestFetch 2 5) (runReader 5 (honestFetch 2 5) ⟨0, false⟩ 5).2).result
        = .closed ∧
     (pull 5 (honestFetch 2 5) (runReader 5 (honestFetch 2 5) ⟨0, false⟩ 5).2).fetched
        = none) ∧
    (∀ (fetch : Nat → Nat × Nat) (s : ReaderState) (lo hi : Nat),
      (pull 5 fetch s).result = .chunk lo hi →
      (pull 5 fetch s).state.frameNumber = hi + 1 ∧
      (pull 5 fetch s).fetched = some s.frameNumber)) :=
  ⟨⟨by decide, by decide, by decide⟩, c1_chunk_ordering 2 5 (by decide) (by decide)⟩

/-- Claim C4: once the cancelled flag is set, every pull closes the
sequence, issues no network request, and leaves the state unchanged (and
hence cancelled), so every later pull does the same; cancelReader sets the
flag. -/
theorem c4_cancellation (F : Nat) (fetch : Nat → Nat × Nat) (s : ReaderState)
    (hc : s.cancelled = true) :
    pull F fetch s = ⟨.closed, s, none⟩ ∧
    ∀ s2 : ReaderState, (cancelReader s2).cancelled = true := by
  constructor
  · unfold pull
    rw [if_pos (Or.inr hc)]
  · intro s2
    rfl

/-- Witness for C4: the theorem applied to a cancelled reader state. -/
theorem c4_cancellation_witness :
    pull 9 (honestFetch 2 9) (cancelReader ⟨3, false⟩) =
      ⟨.closed, cancelReader ⟨3, false⟩, none⟩ ∧
    ∀ s2 : ReaderState, (cancelReader s2).cancelled = true :=
  c4_cancellation 9 (honestFetch 2 9) (cancelReader ⟨3, false⟩) (by decide)

/-! Embedding of the worker session (worker.ts): the process-wide stream
and streamId variables, message dispatch, and the asynchronous behaviour of
the per-reader ReadableStream machinery (reads, pulls with the high water
mark, fetch resolution), modelled as an explicit transition system.  Pull
scheduling follows the platform stream contract the worker relies on: pull
is invoked only when no earlier pull is unsettled and there is demand
(queue below the high water mark, or a pending read), and an enqueued chunk
fulfils a pending read before being buffered. -/

/-- The look-ahead constant from worker.ts. -/
def HIGH_WATER_MARK : Nat := 6

/-- Modelled from the spec: CHUNK_SIZE is imported from ./constants, which
is not among the provided sources, and the spec fixes no value; any
positive chunk size exhibits the same behaviour.  The session model uses
this constant where setStream creates a reader. -/
def CHUNK_SIZE : Nat := 20

/-- One reader created by createReader, together with its stream state:
the closure state (cursor, cancelled), the stream queue, pending read
requests whose getSendChunk callback is tagged with the reader's uuid, the
closed flag, and the number of in-flight fetches. -/
structure RReader where
  uuid : String
  chunkSize : Nat
  frameCount : Nat
  frameNumber : Nat
  cancelled : Bool
  closed : Bool
  queue : List (Nat × Nat)
  readRequests : Nat
  inflight : Nat
deriving DecidableEq

/-- Messages the worker posts to the host. -/
inductive WOut where
  | frameChunk (uuid : String) (lo hi : Nat) : WOut
  | processSample (uuid : String) : WOut
  | sourceSample (uuid : String) : WOut
deriving DecidableEq

/-- The worker session state: the streamId and stream globals (current
points at the reader the stream variable references; older readers may
still have pending activity), pending single-sample fetches, and the
ordered list of posted messages. -/
structure WState where
  streamId : Option String
  readers : List RReader
  current : Option Nat
  sourceFetches : List String
  outbox : List WOut
deriving DecidableEq

/-- Events: inbound host messages, and the asynchronous steps of the
stream machinery (a pull being invoked, a fetch response arriving, a
single-sample fetch response arriving). -/
inductive WEv where
  | msgProcessSample (uuid : String) : WEv
  | msgRequestFrameChunk (uuid : String) : WEv
  | msgSetStream (uuid : String) (frameNumber frameCount : Nat) : WEv
  | msgRequestSourceSample (uuid : String) : WEv
  | pullStart (i : Nat) : WEv
  | fetchResolve (i : Nat) : WEv
  | sourceResolve (uuid : String) : WEv

/-- A fresh reader as createReader builds it. -/
def newReader (uuid : String) (frameNumber frameCount : Nat) : RReader :=
  ⟨uuid, CHUNK_SIZE, frameCount, frameNumber, false, false, [], 0, 0⟩

/-- One read() on reader i whose getSendChunk callback is tagged u: a
buffered chunk is delivered at once, a read on a closed drained stream
resolves done and getSendChunk posts nothing, otherwise the read becomes a
pending read request. -/
def doRead (s : WState) (i : Nat) (u : String) : WState :=
  match s.readers[i]? with
  | none => s
  | some r =>
    match r.queue with
    | c :: rest =>
      { s with readers := s.readers.set i { r with queue := rest },
               outbox := s.outbox ++ [.frameChunk u c.1 c.2] }
    | [] =>
      if r.closed then s
      else { s with readers := s.readers.set i { r with readRequests := r.readRequests + 1 } }

/-- stream.cancel() on the current reader, as setStream performs it: only
the cancelled flag of the underlying source is set. -/
def cancelCurrent (s : WState) : List RReader :=
  match s.current with
  | none => s.readers
  | some j =>
    match s.readers[j]? with
    | none => s.readers
    | some r => s.readers.set j { r with cancelled := true }

/-- The transition function of the worker session. -/
def step (s : WState) : WEv → WState
  | .msgProcessSample u => { s with outbox := s.outbox ++ [.processSample u] }
  | .msgRequestFrameChunk u =>
    if s.streamId = some u then
      match s.current with
      | some i => doRead s i u
      | none => s
    else s
  | .msgSetStream u fn fc =>
    let rs := cancelCurrent s
    doRead { streamId := some u, readers := rs ++ [newReader u fn fc],
             current := some rs.length, sourceFetches := s.sourceFetches,
             outbox := s.outbox } rs.length u
  | .msgRequestSourceSample u => { s with sourceFetches := s.sourceFetches ++ [u] }
  | .pullStart i =>
    match s.readers[i]? with
    | none => s
    | some r =>
      if r.closed = true ∨ r.inflight ≠ 0 ∨
          (HIGH_WATER_MARK ≤ r.queue.length ∧ r.readRequests = 0) then s
      else if r.frameCount ≤ r.frameNumber ∨ r.cancelled = true then
        let rr : Nat := if r.queue.isEmpty then 0 else r.readRequests
        { s with readers := s.readers.set i { r with closed := true, readRequests := rr } }
      else
        { s with readers := s.readers.set i { r with inflight := r.inflight + 1 } }
  | .fetchResolve i =>
    match s.readers[i]? with
    | none => s
    | some r =>
      if r.inflight = 0 then s
      else
        let hi := min (r.frameNumber + r.chunkSize - 1) (r.frameCount - 1)
        if r.readRequests = 0 then
          let r2 : RReader :=
            { r with inflight := r.inflight - 1, frameNumber := hi + 1,
                     queue := r.queue ++ [(r.frameNumber, hi)] }
          { s with readers := s.readers.set i r2 }
        else
          let r2 : RReader :=
            { r with inflight := r.inflight - 1, frameNumber := hi + 1,
                     readRequests := r.readRequests - 1 }
          { s with readers := s.readers.set i r2,
                   outbox := s.outbox ++ [.frameChunk r.uuid r.frameNumber hi] }
  | .sourceResolve u =>
    if s.sourceFetches.contains u then
      { s with sourceFetches := s.sourceFetches.erase u,
               outbox := s.outbox ++ [.sourceSample u] }
    else s

/-- The initial worker session state. -/
def winit : WState := ⟨none, [], none, [], []⟩

/-- Run a sequence of events. -/
def run (s : WState) (evs : List WEv) : WState := evs.foldl step s

/-- The states the worker session can reach. -/
inductive Reaches : WState → Prop where
  | init : Reaches winit
  | step (s : WState) (ev : WEv) : Reaches s → Reaches (step s ev)

/-- Embedding of the onmessage dispatch of worker.ts: the four recognized
method tags dispatch to their handlers, anything else throws an error. -/
def onmessage (s : WState) (method uuid : String) (frameNumber frameCount : Nat) :
    Except String WState :=
  if method = "processSample" then .ok (step s (.msgProcessSample uuid))
  else if method = "requestFrameChunk" then .ok (step s (.msgRequestFrameChunk uuid))
  else if method = "setStream" then .ok (step s (.msgSetStream uuid frameNumber frameCount))
  else if method = "requestSourceSample" then
    .ok (step s (.msgRequestSourceSample uuid))
  else .error "unknown method"

/-- Claim C8: a requestFrameChunk message whose uuid differs from the
active streamId performs no action at all: the state, including the
outbox and every reader, is unchanged. -/
theorem c8_stale_request_ignored (s : WState) (u : String)
    (h : s.streamId ≠ some u) :
    step s (.msgRequestFrameChunk u) = s := by
  have hstep : step s (.msgRequestFrameChunk u) =
      (if s.streamId = some u then
        match s.current with
        | some i => doRead s i u
        | none => s
      else s) := rfl
  rw [hstep, if_neg h]

/-- Witness for C8: after a stream with session id B starts, a
requestFrameChunk for session id A is ignored. -/
theorem c8_stale_request_ignored_witness :
    (step winit (.msgSetStream "B" 0 40)).streamId ≠ some "A" ∧
    step (step winit (.msgSetStream "B" 0 40)) (.msgRequestFrameChunk "A") =
      step winit (.msgSetStream "B" 0 40) :=
  ⟨by decide, c8_stale_request_ignored _ "A" (by decide)⟩

/-- Claim C9: the message dispatch fails loudly on every unrecognized
method tag and succeeds without raising on each of the four recognized
tags. -/
theorem c9_unknown_method_fatal (s : WState) (method uuid : String) (fn fc : Nat) :
    ((method ≠ "processSample" ∧ method ≠ "requestFrameChunk" ∧ method ≠ "setStream" ∧
      method ≠ "requestSourceSample") →
      onmessage s method uuid fn fc = .error "unknown method") ∧
    ((method = "processSample" ∨ method = "requestFrameChunk" ∨ method = "setStream" ∨
      method = "requestSourceSample") →
      ∃ s2, onmessage s method uuid fn fc = .ok s2) := by
  constructor
  · intro h
    obtain ⟨h1, h2, h3, h4⟩ := h
    simp [onmessage, h1, h2, h3, h4]
  · intro h
    rcases h with h | h | h | h <;> subst h <;> simp [onmessage]

/-- Witness for C9: an unrecognized tag errors, setStream succeeds. -/
theorem c9_unknown_method_fatal_witness :
    onmessage winit "frobnicate" "u" 0 9 = .error "unknown method" ∧
    (∃ s2, onmessage winit "setStream" "u" 0 9 = .ok s2) :=
  ⟨(c9_unknown_method_fatal winit "frobnicate" "u" 0 9).1
      ⟨by decide, by decide, by decide, by decide⟩,
   (c9_unknown_method_fatal winit "setStream" "u" 0 9).2 (Or.inr (Or.inr (Or.inl rfl)))⟩

/-- Session state after: start stream A, the stream pulls (issuing A's
fetch), then stream B supersedes A while A's fetch is still in flight. -/
def c3s : WState :=
  run winit [.msgSetStream "A" 0 40, .pullStart 0, .msgSetStream "B" 0 40]

/-- Counterexample to C3 as stated: when session B supersedes session A
while A's chunk fetch is in flight, the late response is not discarded:
the worker posts a frameChunk tagged with A after B is already active,
because cancel only sets a flag and the pending read's getSendChunk
callback carries no session-id comparison. -/
theorem c3_counterexample :
    c3s.streamId = some "B" ∧ c3s.outbox = [] ∧
    (∃ r, c3s.readers[0]? = some r ∧ r.uuid = "A" ∧ r.cancelled = true ∧
      r.inflight = 1) ∧
    (step c3s (.fetchResolve 0)).outbox = [.frameChunk "A" 0 19] := by
  refine ⟨rfl, rfl, ⟨_, rfl, rfl, rfl, rfl⟩, rfl⟩

/-- Claim C3 (amended): the session-id comparison in requestFrameChunk
prevents any new read on behalf of a stale session (a read request count
can only grow through a requestFrameChunk whose uuid is the active
streamId targeting the current reader, or through setStream creating the
new reader), but a read already pending when the session is superseded
still delivers its chunk tagged with the old session id when the in-flight
fetch resolves. -/
theorem c3_amended :
    (∀ (s : WState) (u : String) (i : Nat) (r r2 : RReader),
      s.readers[i]? = some r →
      (step s (.msgRequestFrameChunk u)).readers[i]? = some r2 →
      r.readRequests < r2.readRequests →
      s.streamId = some u ∧ s.current = some i) ∧
    (∀ (s : WState) (i : Nat) (r : RReader),
      s.readers[i]? = some r → 0 < r.inflight → 0 < r.readRequests →
      (step s (.fetchResolve i)).outbox = s.outbox ++
        [.frameChunk r.uuid r.frameNumber
          (min (r.frameNumber + r.chunkSize - 1) (r.frameCount - 1))]) := by
  constructor
  · intro s u i r r2 hr hr2 hlt
    have hstep : step s (.msgRequestFrameChunk u) =
        (if s.streamId = some u then
          match s.current with
          | some j => doRead s j u
          | none => s
        else s) := rfl
    rw [hstep] at hr2
    by_cases hid : s.streamId = some u
    · rw [if_pos hid] at hr2
      cases hcur : s.current with
      | none =>
        simp only [hcur] at hr2
        rw [hr] at hr2
        injection hr2 with hr2
        rw [hr2] at hlt
        exact absurd hlt (lt_irrefl _)
      | some j =>
        simp only [hcur] at hr2
        unfold doRead at hr2
        cases hrj : s.readers[j]? with
        | none =>
          simp only [hrj] at hr2
          rw [hr] at hr2
          injection hr2 with hr2
          rw [hr2] at hlt
          exact absurd hlt (lt_irrefl _)
        | some rj =>
          simp only [hrj] at hr2
          cases hq : rj.queue with
          | cons c rest =>
            simp only [hq] at hr2
            by_cases hij : j = i
            · subst hij
              rw [List.getElem?_set] at hr2
              rw [if_pos rfl] at hr2
              rw [if_pos (by rw [List.getElem?_eq_some] at hrj; exact hrj.1)] at hr2
              injection hr2 with hr2
              rw [← hr2] at hlt
              rw [hrj] at hr
              injection hr with hr
              rw [← hr] at hlt
              exact absurd hlt (lt_irrefl _)
            · rw [List.getElem?_set_ne hij] at hr2
              rw [hr] at hr2
              injection hr2 with hr2
              rw [hr2] at hlt
              exact absurd hlt (lt_irrefl _)
          | nil =>
            simp only [hq] at hr2
            by_cases hcl : rj.closed
            · rw [if_pos hcl] at hr2
              rw [hr] at hr2
              injection hr2 with hr2
              rw [hr2] at hlt
              exact absurd hlt (lt_irrefl _)
            · rw [if_neg hcl] at hr2
              by_cases hij : j = i
              · subst hij
                exact ⟨hid, rfl⟩
              · rw [List.getElem?_set_ne hij] at hr2
                rw [hr] at hr2
                injection hr2 with hr2
                rw [hr2] at hlt
                exact absurd hlt (lt_irrefl _)
    · rw [if_neg hid] at hr2
      rw [hr] at hr2
      injection hr2 with hr2
      rw [hr2] at hlt
      exact absurd hlt (lt_irrefl _)
  · intro s i r hr hin hrr
    have hstep : step s (.fetchResolve i) =
        (match s.readers[i]? with
        | none => s
        | some r =>
          if r.inflight = 0 then s
          else
            let hi := min (r.frameNumber + r.chunkSize - 1) (r.frameCount - 1)
            if r.readRequests = 0 then
              let r2 : RReader :=
                { r with inflight := r.inflight - 1, frameNumber := hi + 1,
                         queue := r.queue ++ [(r.frameNumber, hi)] }
              { s with readers := s.readers.set i r2 }
            else
              let r2 : RReader :=
                { r with inflight := r.inflight - 1, frameNumber := hi + 1,
                         readRequests := r.readRequests - 1 }
              { s with readers := s.readers.set i r2,
                       outbox := s.outbox ++ [.frameChunk r.uuid r.frameNumber hi] }) := rfl
    rw [hstep]
    simp only [hr]
    rw [if_neg (show ¬ r.inflight = 0 by omega)]
    rw [if_neg (show ¬ r.readRequests = 0 by omega)]

/-- Witness for the amended C3: the late chunk posted in the superseded
session of the counterexample trace is exactly the pending read being
fulfilled, and a requestFrameChunk for a stale uuid grows no read
request count. -/
theorem c3_amended_witness :
    (step c3s (.fetchResolve 0)).outbox = c3s.outbox ++ [.frameChunk "A" 0 19] :=
  have hr : c3s.readers[0]? = some ⟨"A", 20, 40, 0, true, false, [], 1, 1⟩ := rfl
  c3_amended.2 c3s 0 _ hr (by decide) (by decide)

/-- Session state after stream A prefetches past its frame count: the
first chunk was delivered, the second sits in the stream queue, and the
cursor has reached the total frame count. -/
def c10s : WState :=
  run winit [.msgSetStream "A" 0 40, .pullStart 0, .fetchResolve 0,
    .pullStart 0, .fetchResolve 0]

/-- Counterexample to C10 as stated: a requestFrameChunk for the active
session whose source has terminated (cursor at the frame count) does post
an outbound message when a prefetched chunk is still buffered in the
stream queue. -/
theorem c10_counterexample :
    c10s.streamId = some "A" ∧ c10s.current = some 0 ∧
    (∃ r, c10s.readers[0]? = some r ∧ r.frameCount ≤ r.frameNumber ∧
      r.cancelled = false ∧ r.queue = [(20, 39)]) ∧
    (step c10s (.msgRequestFrameChunk "A")).outbox =
      c10s.outbox ++ [.frameChunk "A" 20 39] := by
  refine ⟨rfl, rfl, ⟨_, rfl, by decide, rfl, rfl⟩, rfl⟩

/-- Claim C10 (amended): a requestFrameChunk for the active session whose
source has terminated posts no outbound message provided the stream queue
is drained: the read resolves done (immediately if the stream is closed,
or at the next pull, which closes it), and a closed, drained, quiescent
reader never reacts to any further pull, fetch resolution, or matching
chunk request.  Buffered chunks, by contrast, are still delivered. -/
theorem c10_amended (s : WState) (u : String) (i : Nat) (r : RReader)
    (hid : s.streamId = some u) (hcur : s.current = some i)
    (hr : s.readers[i]? = some r) (hq : r.queue = []) (hin : r.inflight = 0)
    (hrr : r.readRequests = 0)
    (hterm : r.closed = true ∨ r.cancelled = true ∨ r.frameCount ≤ r.frameNumber) :
    (step s (.msgRequestFrameChunk u)).outbox = s.outbox ∧
    (step (step s (.msgRequestFrameChunk u)) (.pullStart i)).outbox = s.outbox ∧
    (∃ r2, (step (step s (.msgRequestFrameChunk u)) (.pullStart i)).readers[i]?
        = some r2 ∧
      r2.closed = true ∧ r2.queue = [] ∧ r2.readRequests = 0 ∧ r2.inflight = 0) ∧
    (∀ (t : WState) (j : Nat) (r3 : RReader), t.readers[j]? = some r3 →
      r3.closed = true → r3.queue = [] → r3.readRequests = 0 → r3.inflight = 0 →
      step t (.pullStart j) = t ∧ step t (.fetchResolve j) = t ∧
      (t.streamId = some r3.uuid → t.current = some j →
        step t (.msgRequestFrameChunk r3.uuid) = t)) := by
  have hread : ∀ (t : WState) (j : Nat) (v : String) (r3 : RReader),
      t.readers[j]? = some r3 →
      r3.queue = [] → r3.closed = true → doRead t j v = t := by
    intro t j v r3 h3 h3q h3c
    unfold doRead
    simp only [h3, h3q, h3c, if_pos]
  have hdead : ∀ (t : WState) (j : Nat) (r3 : RReader), t.readers[j]? = some r3 →
      r3.closed = true → r3.queue = [] → r3.readRequests = 0 → r3.inflight = 0 →
      step t (.pullStart j) = t ∧ step t (.fetchResolve j) = t ∧
      (t.streamId = some r3.uuid → t.current = some j →
        step t (.msgRequestFrameChunk r3.uuid) = t) := by
    intro t j r3 h3 h3c h3q h3rr h3in
    refine ⟨?_, ?_, ?_⟩
    · have hstep : step t (.pullStart j) =
          (match t.readers[j]? with
          | none => t
          | some r =>
            if r.closed = true ∨ r.inflight ≠ 0 ∨
                (HIGH_WATER_MARK ≤ r.queue.length ∧ r.readRequests = 0) then t
            else if r.frameCount ≤ r.frameNumber ∨ r.cancelled = true then
              let rr : Nat := if r.queue.isEmpty then 0 else r.readRequests
              let r4 : RReader := { r with closed := true, readRequests := rr }
              { t with readers := t.readers.set j r4 }
            else
              let r4 : RReader := { r with inflight := r.inflight + 1 }
              { t with readers := t.readers.set j r4 }) := rfl
      rw [hstep]
      simp only [h3]
      rw [if_pos (Or.inl h3c)]
    · have hstep : step t (.fetchResolve j) =
          (match t.readers[j]? with
          | none => t
          | some r =>
            if r.inflight = 0 then t
            else
              let hi := min (r.frameNumber + r.chunkSize - 1) (r.frameCount - 1)
              if r.readRequests = 0 then
                let r2 : RReader :=
                  { r with inflight := r.inflight - 1, frameNumber := hi + 1,
                           queue := r.queue ++ [(r.frameNumber, hi)] }
                { t with readers := t.readers.set j r2 }
              else
                let r2 : RReader :=
                  { r with inflight := r.inflight - 1, frameNumber := hi + 1,
                           readRequests := r.readRequests - 1 }
                { t with readers := t.readers.set j r2,
                         outbox := t.outbox ++ [.frameChunk r.uuid r.frameNumber hi] }) :=
        rfl
      rw [hstep]
      simp only [h3]
      rw [if_pos h3in]
    · intro htid htcur
      have hstep : step t (.msgRequestFrameChunk r3.uuid) =
          (if t.streamId = some r3.uuid then
            match t.current with
            | some k => doRead t k r3.uuid
            | none => t
          else t) := rfl
      rw [hstep, if_pos htid]
      simp only [htcur]
      exact hread t j r3.uuid r3 h3 h3q h3c

  have hilt : i < s.readers.length := (List.getElem?_eq_some.mp hr).1
  by_cases hcl : r.closed = true
  · have h1 : step s (.msgRequestFrameChunk u) = s := by
      have hstep : step s (.msgRequestFrameChunk u) =
          (if s.streamId = some u then
            match s.current with
            | some k => doRead s k u
            | none => s
          else s) := rfl
      rw [hstep, if_pos hid]
      simp only [hcur]
      exact hread s i u r hr hq hcl

    have hd := hdead s i r hr hcl hq hrr hin
    refine ⟨by rw [h1], by rw [h1, hd.1], ?_, hdead⟩
    exact ⟨r, by rw [h1, hd.1]; exact hr, hcl, hq, hrr, hin⟩
  · have hclf : r.closed = false := by
      revert hcl
      cases r.closed <;> simp
    have hterm2 : r.frameCount ≤ r.frameNumber ∨ r.cancelled = true := by
      rcases hterm with h | h | h
      · exact absurd h hcl
      · exact Or.inr h
      · exact Or.inl h
    have h1 : step s (.msgRequestFrameChunk u) =
        { s with readers := s.readers.set i { r with readRequests := r.readRequests + 1 } } := by
      have hstep : step s (.msgRequestFrameChunk u) =
          (if s.streamId = some u then
            match s.current with
            | some k => doRead s k u
            | none => s
          else s) := rfl
      rw [hstep, if_pos hid]
      simp only [hcur]
      unfold doRead
      simp only [hr, hq]
      rw [if_neg hcl, hcur]
    have hpull : ∀ (t : WState) (rt : RReader), t.readers[i]? = some rt →
        rt.closed = false → rt.inflight = 0 → rt.queue = [] →
        (rt.frameCount ≤ rt.frameNumber ∨ rt.cancelled = true) →
        step t (.pullStart i) = { t with readers := t.readers.set i { rt with closed := true, readRequests := 0 } } := by
      intro t rt h3 h3c h3in h3q h3t
      have hstep : step t (.pullStart i) =
          (match t.readers[i]? with
          | none => t
          | some r =>
            if r.closed = true ∨ r.inflight ≠ 0 ∨
                (HIGH_WATER_MARK ≤ r.queue.length ∧ r.readRequests = 0) then t
            else if r.frameCount ≤ r.frameNumber ∨ r.cancelled = true then
              let rr : Nat := if r.queue.isEmpty then 0 else r.readRequests
              let r4 : RReader := { r with closed := true, readRequests := rr }
              { t with readers := t.readers.set i r4 }
            else
              let r4 : RReader := { r with inflight := r.inflight + 1 }
              { t with readers := t.readers.set i r4 }) := rfl
      rw [hstep]
      simp only [h3]
      rw [if_neg (by simp [h3c, h3in, h3q, HIGH_WATER_MARK])]
      rw [if_pos h3t]
      simp only [h3q, List.isEmpty_nil, if_pos]
    have hs1r : (step s (.msgRequestFrameChunk u)).readers[i]? =
        some { r with readRequests := r.readRequests + 1 } := by
      rw [h1]
      exact List.getElem?_set_self hilt
    have h2 := hpull (step s (.msgRequestFrameChunk u))
      { r with readRequests := r.readRequests + 1 } hs1r hclf hin hq hterm2
    refine ⟨by rw [h1], by rw [h2, h1], ?_, hdead⟩
    refine ⟨{ r with closed := true, readRequests := 0 }, ?_, rfl, hq, rfl, hin⟩
    rw [h2]
    apply List.getElem?_set_self
    rw [h1, List.length_set]
    exact hilt

/-- The per-reader invariant behind claim C5: at most one outstanding fetch,
a queue bounded by the high-water mark, no buffering while a fetch races a
pull slot above the mark, and pending read requests only on a drained
queue. -/
def InvR (r : RReader) : Prop :=
  r.inflight ≤ 1 ∧ r.queue.length ≤ HIGH_WATER_MARK ∧
  (r.inflight = 1 → r.queue.length < HIGH_WATER_MARK) ∧
  (0 < r.readRequests → r.queue = [])

theorem invR_newReader (u : String) (fn fc : Nat) : InvR (newReader u fn fc) := by
  unfold InvR newReader
  refine ⟨by simp, by simp [HIGH_WATER_MARK], by simp, by simp⟩

theorem invR_doRead (s : WState) (k : Nat) (u : String)
    (hinv : ∀ r ∈ s.readers, InvR r) :
    ∀ r ∈ (doRead s k u).readers, InvR r := by
  have hstep : doRead s k u =
      (match s.readers[k]? with
      | none => s
      | some r =>
        match r.queue with
        | c :: rest =>
          { s with readers := s.readers.set k { r with queue := rest },
                   outbox := s.outbox ++ [.frameChunk u c.1 c.2] }
        | [] =>
          if r.closed then s
          else { s with readers :=
                   s.readers.set k { r with readRequests := r.readRequests + 1 } }) := rfl
  cases hrk : s.readers[k]? with
  | none =>
    simp only [hrk] at hstep
    rw [hstep]
    exact hinv
  | some rk =>
    simp only [hrk] at hstep
    have hmemk : rk ∈ s.readers := mem_of_idx hrk
    obtain ⟨i1, i2, i3, i4⟩ := hinv rk hmemk
    cases hq : rk.queue with
    | cons c rest =>
      simp only [hq] at hstep
      rw [hstep]
      intro r2 hr2
      rcases List.mem_or_eq_of_mem_set
        (show r2 ∈ s.readers.set k { rk with queue := rest } from hr2) with hmem | heq
      · exact hinv r2 hmem
      · subst heq
        have hlen : rk.queue.length = rest.length + 1 := by rw [hq]; rfl
        refine ⟨i1, by simp; omega, fun h1 => ?_, fun hpos => ?_⟩
        · have := i3 h1
          simp only [hlen] at this
          simp
          omega
        · have := i4 hpos
          rw [hq] at this
          cases this
    | nil =>
      simp only [hq] at hstep
      by_cases hcl : rk.closed = true
      · rw [if_pos hcl] at hstep
        rw [hstep]
        exact hinv
      · rw [if_neg hcl] at hstep
        rw [hstep]
        intro r2 hr2
        rcases List.mem_or_eq_of_mem_set
          (show r2 ∈ s.readers.set k { rk with queue := [], readRequests := rk.readRequests + 1 }
            from hr2) with hmem | heq
        · exact hinv r2 hmem
        · subst heq
          exact ⟨i1, Nat.zero_le HIGH_WATER_MARK,
            fun _ => (by decide : (0 : Nat) < HIGH_WATER_MARK), fun _ => rfl⟩

theorem invR_cancelCurrent (s : WState) (hinv : ∀ r ∈ s.readers, InvR r) :
    ∀ r ∈ cancelCurrent s, InvR r := by
  have hstep : cancelCurrent s =
      (match s.current with
      | none => s.readers
      | some j =>
        match s.readers[j]? with
        | none => s.readers
        | some r => s.readers.set j { r with cancelled := true }) := rfl
  cases hc : s.current with
  | none =>
    simp only [hc] at hstep
    rw [hstep]
    exact hinv
  | some j =>
    simp only [hc] at hstep
    cases hrj : s.readers[j]? with
    | none =>
      simp only [hrj] at hstep
      rw [hstep]
      exact hinv
    | some rj =>
      simp only [hrj] at hstep
      rw [hstep]
      intro r2 hr2
      rcases List.mem_or_eq_of_mem_set hr2 with hmem | heq
      · exact hinv r2 hmem
      · subst heq
        exact hinv rj (mem_of_idx hrj)

theorem invR_step (s : WState) (ev : WEv) (hinv : ∀ r ∈ s.readers, InvR r) :
    ∀ r ∈ (step s ev).readers, InvR r := by
  cases ev with
  | msgProcessSample u => exact hinv
  | msgRequestSourceSample u => exact hinv
  | sourceResolve u =>
    have hre : (step s (.sourceResolve u)).readers = s.readers := by
      have hstep : step s (.sourceResolve u) =
          (if s.sourceFetches.contains u then
            { s with sourceFetches := s.sourceFetches.erase u,
                     outbox := s.outbox ++ [.sourceSample u] }
          else s) := rfl
      rw [hstep]
      split <;> rfl
    intro r hr
    rw [hre] at hr
    exact hinv r hr
  | msgRequestFrameChunk u =>
    have hstep : step s (.msgRequestFrameChunk u) =
        (if s.streamId = some u then
          match s.current with
          | some k => doRead s k u
          | none => s
        else s) := rfl
    rw [hstep]
    split
    · cases s.current with
      | none => exact hinv
      | some k => exact invR_doRead s k u hinv
    · exact hinv
  | msgSetStream u fn fc =>
    have hbig : ∀ r ∈ cancelCurrent s ++ [newReader u fn fc], InvR r := by
      intro r hr
      rcases List.mem_append.mp hr with hm | hm
      · exact invR_cancelCurrent s hinv r hm
      · rw [List.mem_singleton.mp hm]
        exact invR_newReader u fn fc
    exact invR_doRead _ _ _ hbig
  | pullStart i =>
    have hstep : step s (.pullStart i) =
        (match s.readers[i]? with
        | none => s
        | some r =>
          if r.closed = true ∨ r.inflight ≠ 0 ∨
              (HIGH_WATER_MARK ≤ r.queue.length ∧ r.readRequests = 0) then s
          else if r.frameCount ≤ r.frameNumber ∨ r.cancelled = true then
            let rr : Nat := if r.queue.isEmpty then 0 else r.readRequests
            let r4 : RReader := { r with closed := true, readRequests := rr }
            { s with readers := s.readers.set i r4 }
          else
            let r4 : RReader := { r with inflight := r.inflight + 1 }
            { s with readers := s.readers.set i r4 }) := rfl
    cases hri : s.readers[i]? with
    | none =>
      simp only [hri] at hstep
      rw [hstep]
      exact hinv
    | some ri =>
      simp only [hri] at hstep
      obtain ⟨i1, i2, i3, i4⟩ := hinv ri (mem_of_idx hri)
      by_cases hg : ri.closed = true ∨ ri.inflight ≠ 0 ∨
          (HIGH_WATER_MARK ≤ ri.queue.length ∧ ri.readRequests = 0)
      · rw [if_pos hg] at hstep
        rw [hstep]
        exact hinv
      · rw [if_neg hg] at hstep
        by_cases ht : ri.frameCount ≤ ri.frameNumber ∨ ri.cancelled = true
        · rw [if_pos ht] at hstep
          rw [hstep]
          intro r2 hr2
          rcases List.mem_or_eq_of_mem_set
            (show r2 ∈ s.readers.set i { ri with closed := true, readRequests := if ri.queue.isEmpty then 0 else ri.readRequests } from hr2) with hmem | heq
          · exact hinv r2 hmem
          · subst heq
            refine ⟨i1, i2, i3, ?_⟩
            intro hpos
            by_cases hqe : ri.queue.isEmpty = true
            · simp [hqe] at hpos
            · simp only [hqe, Bool.false_eq_true, if_false] at hpos
              exact i4 hpos
        · rw [if_neg ht] at hstep
          rw [hstep]
          intro r2 hr2
          rcases List.mem_or_eq_of_mem_set
            (show r2 ∈ s.readers.set i { ri with inflight := ri.inflight + 1 } from hr2) with hmem | heq
          · exact hinv r2 hmem
          · subst heq
            have hin0 : ri.inflight = 0 := by
              by_contra hcontra
              exact hg (Or.inr (Or.inl hcontra))
            have hdem : ri.queue.length < HIGH_WATER_MARK := by
              by_cases hr6 : HIGH_WATER_MARK ≤ ri.queue.length
              · have hrrne : ri.readRequests ≠ 0 := by
                  intro h0
                  exact hg (Or.inr (Or.inr ⟨hr6, h0⟩))
                have := i4 (Nat.pos_of_ne_zero hrrne)
                rw [this] at hr6
                exact absurd hr6 (by decide)
              · omega
            exact ⟨by simp [hin0], i2, fun _ => hdem, i4⟩
  | fetchResolve i =>
    have hstep : step s (.fetchResolve i) =
        (match s.readers[i]? with
        | none => s
        | some r =>
          if r.inflight = 0 then s
          else
            let hi := min (r.frameNumber + r.chunkSize - 1) (r.frameCount - 1)
            if r.readRequests = 0 then
              let r2 : RReader :=
                { r with inflight := r.inflight - 1, frameNumber := hi + 1,
                         queue := r.queue ++ [(r.frameNumber, hi)] }
              { s with readers := s.readers.set i r2 }
            else
              let r2 : RReader :=
                { r with inflight := r.inflight - 1, frameNumber := hi + 1,
                         readRequests := r.readRequests - 1 }
              { s with readers := s.readers.set i r2,
                       outbox := s.outbox ++ [.frameChunk r.uuid r.frameNumber hi] }) := rfl
    cases hri : s.readers[i]? with
    | none =>
      simp only [hri] at hstep
      rw [hstep]
      exact hinv
    | some ri =>
      simp only [hri] at hstep
      obtain ⟨i1, i2, i3, i4⟩ := hinv ri (mem_of_idx hri)
      by_cases hin : ri.inflight = 0
      · rw [if_pos hin] at hstep
        rw [hstep]
        exact hinv
      · rw [if_neg hin] at hstep
        have hin1 : ri.inflight = 1 := by omega
        by_cases hrr : ri.readRequests = 0
        · rw [if_pos hrr] at hstep
          rw [hstep]
          intro r2 hr2
          rcases List.mem_or_eq_of_mem_set
            (show r2 ∈ s.readers.set i { ri with inflight := ri.inflight - 1, frameNumber := min (ri.frameNumber + ri.chunkSize - 1) (ri.frameCount - 1) + 1, queue := ri.queue ++ [(ri.frameNumber, min (ri.frameNumber + ri.chunkSize - 1) (ri.frameCount - 1))] } from hr2) with hmem | heq
          · exact hinv r2 hmem
          · subst heq
            have hlt := i3 hin1
            refine ⟨by simp; omega, by simp; omega, ?_, ?_⟩
            · intro h1
              simp at h1
              omega
            · intro hpos
              simp [hrr] at hpos
        · rw [if_neg hrr] at hstep
          rw [hstep]
          intro r2 hr2
          rcases List.mem_or_eq_of_mem_set
            (show r2 ∈ s.readers.set i { ri with inflight := ri.inflight - 1, frameNumber := min (ri.frameNumber + ri.chunkSize - 1) (ri.frameCount - 1) + 1, readRequests := ri.readRequests - 1 } from hr2) with hmem | heq
          · exact hinv r2 hmem
          · subst heq
            have hqnil := i4 (Nat.pos_of_ne_zero hrr)
            refine ⟨by simp; omega, i2, ?_, fun _ => hqnil⟩
            intro h1
            simp at h1
            omega

theorem invR_reaches (s : WState) (h : Reaches s) : ∀ r ∈ s.readers, InvR r := by
  induction h with
  | init =>
    intro r hr
    simp [winit] at hr
  | step s2 ev h2 ih => exact invR_step s2 ev ih

/-- Claim C5: in every reachable session state each reader has at most one
outstanding fetch and at most HIGH_WATER_MARK buffered chunks; moreover a
pull tick actually starts a fetch exactly when the source is live (not
closed, not cancelled, frames remaining), no fetch is outstanding, and the
consumer demands data: the queue is below the high-water mark or a read
request is pending. -/
theorem c5_backpressure :
    (∀ s : WState, Reaches s → ∀ r ∈ s.readers,
        r.inflight ≤ 1 ∧ r.queue.length ≤ HIGH_WATER_MARK) ∧
    (∀ (s : WState) (i : Nat) (r : RReader), s.readers[i]? = some r →
      ((step s (.pullStart i)).readers[i]? = some { r with inflight := r.inflight + 1 } ↔
        (r.closed = false ∧ r.inflight = 0 ∧
         (r.queue.length < HIGH_WATER_MARK ∨ 0 < r.readRequests) ∧
         r.frameNumber < r.frameCount ∧ r.cancelled = false))) := by
  constructor
  · intro s hs r hr
    obtain ⟨a, b, _, _⟩ := invR_reaches s hs r hr
    exact ⟨a, b⟩
  · intro s i r hri
    have hilt : i < s.readers.length := (List.getElem?_eq_some.mp hri).1
    have hstep : step s (.pullStart i) =
        (match s.readers[i]? with
        | none => s
        | some r =>
          if r.closed = true ∨ r.inflight ≠ 0 ∨
              (HIGH_WATER_MARK ≤ r.queue.length ∧ r.readRequests = 0) then s
          else if r.frameCount ≤ r.frameNumber ∨ r.cancelled = true then
            let rr : Nat := if r.queue.isEmpty then 0 else r.readRequests
            let r4 : RReader := { r with closed := true, readRequests := rr }
            { s with readers := s.readers.set i r4 }
          else
            let r4 : RReader := { r with inflight := r.inflight + 1 }
            { s with readers := s.readers.set i r4 }) := rfl
    simp only [hri] at hstep
    constructor
    · intro hl
      by_cases hg : r.closed = true ∨ r.inflight ≠ 0 ∨
          (HIGH_WATER_MARK ≤ r.queue.length ∧ r.readRequests = 0)
      · rw [if_pos hg] at hstep
        rw [hstep, hri] at hl
        injection hl with hl2
        have hinj : r.inflight = r.inflight + 1 := congrArg RReader.inflight hl2
        omega
      · rw [if_neg hg] at hstep
        by_cases ht : r.frameCount ≤ r.frameNumber ∨ r.cancelled = true
        · rw [if_pos ht] at hstep
          rw [hstep] at hl
          rw [show ({ s with readers := s.readers.set i { r with closed := true, readRequests := if r.queue.isEmpty then 0 else r.readRequests } } : WState).readers = s.readers.set i { r with closed := true, readRequests := if r.queue.isEmpty then 0 else r.readRequests } from rfl] at hl
          rw [List.getElem?_set_self hilt] at hl
          injection hl with hl2
          have hinj : r.inflight = r.inflight + 1 := congrArg RReader.inflight hl2
          omega
        · push_neg at hg ht
          obtain ⟨hg1, hg2, hg3⟩ := hg
          obtain ⟨ht1, ht2⟩ := ht
          refine ⟨by simpa using hg1, hg2, ?_, ht1, by simpa using ht2⟩
          rcases Nat.lt_or_ge r.queue.length HIGH_WATER_MARK with hlen | hlen
          · exact Or.inl hlen
          · exact Or.inr (Nat.pos_of_ne_zero (hg3 hlen))
    · rintro ⟨hc, hin, hd, hfn, hca⟩
      have hg : ¬(r.closed = true ∨ r.inflight ≠ 0 ∨
          (HIGH_WATER_MARK ≤ r.queue.length ∧ r.readRequests = 0)) := by
        rintro (h | h | ⟨h1, h2⟩)
        · rw [hc] at h
          exact Bool.false_ne_true h
        · exact h hin
        · rcases hd with hd | hd <;> omega
      have ht : ¬(r.frameCount ≤ r.frameNumber ∨ r.cancelled = true) := by
        rintro (h | h)
        · omega
        · rw [hca] at h
          exact Bool.false_ne_true h
      rw [if_neg hg] at hstep
      rw [if_neg ht] at hstep
      rw [hstep]
      exact List.getElem?_set_self hilt

/-- The session state after opening stream A over 40 frames: the initial
read of setStream leaves one pending read request on a fresh reader. -/
def c5s : WState := run winit [.msgSetStream "A" 0 40]

/-- The single reader of c5s. -/
def c5r : RReader := ⟨"A", 20, 40, 0, false, false, [], 1, 0⟩

theorem c5_backpressure_witness :
    (c5r.inflight ≤ 1 ∧ c5r.queue.length ≤ HIGH_WATER_MARK) ∧
    (step c5s (.pullStart 0)).readers[0]? = some { c5r with inflight := c5r.inflight + 1 } :=
  ⟨c5_backpressure.1 c5s (Reaches.step winit (.msgSetStream "A" 0 40) Reaches.init) c5r
      (mem_of_idx (show c5s.readers[0]? = some c5r from rfl)),
   (c5_backpressure.2 c5s 0 c5r (show c5s.readers[0]? = some c5r from rfl)).mpr
      ⟨rfl, rfl, Or.inl (by decide), by decide, rfl⟩⟩

/-- The session state after stream A over a single frame has been fully
pulled: the lone chunk was delivered to the pending read and the next pull
closed the drained stream. -/
def c10w : WState :=
  run winit [.msgSetStream "A" 0 1, .pullStart 0, .fetchResolve 0, .pullStart 0]

theorem c10_amended_witness :
    (step c10w (.msgRequestFrameChunk "A")).outbox = c10w.outbox ∧
    (step (step c10w (.msgRequestFrameChunk "A")) (.pullStart 0)).outbox = c10w.outbox :=
  ⟨(c10_amended c10w "A" 0 ⟨"A", 20, 1, 1, false, true, [], 0, 0⟩
      rfl rfl rfl rfl rfl rfl (Or.inl rfl)).1,
   (c10_amended c10w "A" 0 ⟨"A", 20, 1, 1, false, true, [], 0, 0⟩
      rfl rfl rfl rfl rfl rfl (Or.inl rfl)).2.1⟩

end Worker
